import Mathlib

/-!
Verification development for the grid-based path-planning core:
brushfire distance transform, wavefront propagation, potential-field
construction, and the two descent path extractors.

Grids and scalar fields are embedded as functions from integer coordinate
pairs; array shapes (R rows, C columns) are passed explicitly.  Fallible
operations (bad connectivity, numpy index errors) return `Except String`.
Queue-driven BFS loops are embedded as fuel-indexed iteration of a single
step function, with the fuel proven sufficient from a decreasing measure.
-/

/-- A grid coordinate: (row, col), as arbitrary integers like Python ints. -/
abbrev Pos : Type := ℤ × ℤ

/-- `inB R C p` : the coordinate pair lies inside an R×C array. -/
def inB (R C : ℕ) (p : Pos) : Prop :=
  0 ≤ p.1 ∧ p.1 < (R : ℤ) ∧ 0 ≤ p.2 ∧ p.2 < (C : ℤ)

instance (R C : ℕ) (p : Pos) : Decidable (inB R C p) := by
  unfold inB; infer_instance

/-- The finite set of in-bounds cells of an R×C grid. -/
def cells (R C : ℕ) : Finset Pos :=
  Finset.Icc (0 : ℤ) ((R : ℤ) - 1) ×ˢ Finset.Icc (0 : ℤ) ((C : ℤ) - 1)

theorem mem_cells {R C : ℕ} {p : Pos} : p ∈ cells R C ↔ inB R C p := by
  cases p with
  | mk i j =>
    simp only [cells, Finset.mem_product, Finset.mem_Icc, inB]
    omega

theorem card_cells (R C : ℕ) : (cells R C).card = R * C := by
  simp only [cells, Finset.card_product, Int.card_Icc]
  simp [Int.toNat_of_nonneg]

/-- Pointwise update of a field, modelling a single array write. -/
def upd {α : Type} (f : Pos → α) (p : Pos) (v : α) : Pos → α :=
  fun q => if q = p then v else f q

theorem upd_same {α : Type} (f : Pos → α) (p : Pos) (v : α) : upd f p v p = v := by
  simp [upd]

theorem upd_other {α : Type} (f : Pos → α) (p q : Pos) (v : α) (h : q ≠ p) :
    upd f p v q = f q := by
  simp [upd, h]

/-- Fuel-indexed iteration of a step function (the embedded while-loop). -/
def runN {σ : Type} (step : σ → σ) : ℕ → σ → σ
  | 0, s => s
  | n + 1, s => runN step n (step s)

theorem runN_add {σ : Type} (step : σ → σ) (m n : ℕ) (s : σ) :
    runN step (m + n) s = runN step n (runN step m s) := by
  induction m generalizing s with
  | zero => rw [Nat.zero_add]; rfl
  | succ k ih =>
    show runN step (k + 1 + n) s = runN step n (runN step k (step s))
    have h : k + 1 + n = (k + n) + 1 := by omega
    rw [h]
    show runN step (k + n) (step s) = _
    exact ih (step s)

theorem runN_fix {σ : Type} (step : σ → σ) (n : ℕ) (t : σ) (h : step t = t) :
    runN step n t = t := by
  induction n with
  | zero => rfl
  | succ k ih => simp only [runN, h]; exact ih

/-- Generic loop-termination lemma: if an invariant is preserved and a natural
measure strictly decreases at every non-final step, while final states are
fixed points, then any fuel at least the initial measure runs the loop to a
final state that still satisfies the invariant. -/
theorem runN_completes {σ : Type} (step : σ → σ) (Inv : σ → Prop) (Done : σ → Prop)
    (Φ : σ → ℕ)
    (hstep : ∀ s, Inv s → ¬ Done s → Inv (step s) ∧ Φ (step s) < Φ s)
    (hfix : ∀ s, Done s → step s = s)
    (hzero : ∀ s, Inv s → Φ s = 0 → Done s) :
    ∀ fuel s, Inv s → Φ s ≤ fuel → Inv (runN step fuel s) ∧ Done (runN step fuel s) := by
  intro fuel
  induction fuel with
  | zero =>
    intro s hInv hΦ
    have hd : Done s := hzero s hInv (Nat.le_zero.mp hΦ)
    exact ⟨hInv, hd⟩
  | succ k ih =>
    intro s hInv hΦ
    by_cases hd : Done s
    · rw [show runN step (k+1) s = runN step k (step s) from rfl, hfix s hd]
      have := runN_fix step k s (hfix s hd)
      rw [this]
      exact ⟨hInv, hd⟩
    · obtain ⟨hInv', hlt⟩ := hstep s hInv hd
      have : Φ (step s) ≤ k := by omega
      exact ih (step s) hInv' this

/-! ## Brushfire distance transform (src/brushfire.py) -/

/-- Brushfire move pattern for 4-connectivity, in source order. -/
def bmoves4 : List Pos := [(-1,0),(0,-1),(1,0),(0,1)]

/-- Brushfire move pattern for 8-connectivity, in source order. -/
def bmoves8 : List Pos := [(-1,0),(-1,-1),(0,-1),(1,-1),(1,0),(1,1),(0,1),(-1,1)]

/-- State of the brushfire BFS: the working array and the FIFO queue. -/
structure BState where
  f : Pos → ℤ
  q : List Pos

/-- One neighbour visit of the brushfire inner loop: skip when out of
bounds, otherwise assign `result[t]+1` to a still-zero neighbour and
enqueue it. -/
def bstepCell (R C : ℕ) (t : Pos) (m : Pos) (s : BState) : BState :=
  if (t + m).1 ≥ (R : ℤ) ∨ (t + m).2 ≥ (C : ℤ) ∨ (t + m).1 < 0 ∨ (t + m).2 < 0 then s
  else if s.f (t + m) = 0 then
    { f := upd s.f (t + m) (s.f t + 1), q := s.q ++ [t + m] }
  else s

/-- One iteration of the brushfire while-loop: pop the queue head and
visit all its neighbours under the move pattern. -/
def bstep (R C : ℕ) (moves : List Pos) (s : BState) : BState :=
  match s.q with
  | [] => s
  | t :: rest => moves.foldl (fun a m => bstepCell R C t m a) { f := s.f, q := rest }

/-- All in-bounds cells in row-major order (the iteration order of
`np.ndindex`). -/
def cellList (R C : ℕ) : List Pos :=
  (List.range R).flatMap
    (fun (i : ℕ) => (List.range C).map (fun (j : ℕ) => ((i : ℤ), (j : ℤ))))

/-- The obstacle cells of the grid in row-major order (the seeding loop). -/
def obstList (g : Pos → ℤ) (R C : ℕ) : List Pos :=
  (cellList R C).filter (fun p => g p = 1)

/-- Fuel sufficient for the brushfire BFS (measure `|queue| + 2·#zero-cells`). -/
def bfuel (R C : ℕ) : ℕ := 3 * (R * C) + 1

/-- `compute_obstacle_distance` from src/brushfire.py: multi-source BFS from
all obstacle cells, then subtract 1 so obstacles read 0. -/
def compute_obstacle_distance (g : Pos → ℤ) (R C : ℕ) (c : ℤ) :
    Except String (Pos → ℤ) :=
  let init : BState := { f := g, q := obstList g R C }
  if c = 4 then
    .ok (fun p => (runN (bstep R C bmoves4) (bfuel R C) init).f p - 1)
  else if c = 8 then
    .ok (fun p => (runN (bstep R C bmoves8) (bfuel R C) init).f p - 1)
  else
    .error ("Unsupported connectivity: " ++ toString c ++ ". Use 4 or 8.")

/-- Observation helper: the value of the brushfire output at one cell. -/
def brushAt (g : Pos → ℤ) (R C : ℕ) (c : ℤ) (p : Pos) : ℤ :=
  match compute_obstacle_distance g R C c with
  | .ok f => f p
  | .error _ => 37

/-- The error message, if any, of a fallible field computation. -/
def errOf {α : Type} : Except String α → Option String
  | .ok _ => none
  | .error e => some e

/-! ## Brushfire correctness: hop-distance specification and BFS invariants -/

/-- `ReachB g R C moves n p`: there is a propagation path of `n` hops from
some Occupied cell to `p`, passing only through in-bounds Free cells after
the first (Occupied) cell — exactly the paths along which the brushfire BFS
propagates. -/
inductive ReachB (g : Pos → ℤ) (R C : ℕ) (moves : List Pos) : ℕ → Pos → Prop
  | base (p : Pos) (hb : inB R C p) (ho : g p = 1) : ReachB g R C moves 0 p
  | step (n : ℕ) (t m : Pos) (h : ReachB g R C moves n t) (hm : m ∈ moves)
      (hb : inB R C (t + m)) (hf : g (t + m) = 0) : ReachB g R C moves (n + 1) (t + m)

/-- `n` is the minimum brushfire hop-distance of `p` to the nearest obstacle. -/
def IsLeastDist (g : Pos → ℤ) (R C : ℕ) (moves : List Pos) (p : Pos) (n : ℕ) : Prop :=
  ReachB g R C moves n p ∧ ∀ k, ReachB g R C moves k p → n ≤ k

theorem exists_least_dist {g : Pos → ℤ} {R C : ℕ} {moves : List Pos} {p : Pos}
    (h : ∃ k, ReachB g R C moves k p) : ∃ n, IsLeastDist g R C moves p n :=
  ⟨sInf {k | ReachB g R C moves k p}, Nat.sInf_mem h, fun k hk => Nat.sInf_le hk⟩

theorem reachB_inB {g : Pos → ℤ} {R C : ℕ} {moves : List Pos} {n : ℕ} {p : Pos}
    (h : ReachB g R C moves n p) : inB R C p := by
  cases h with
  | base _ hb _ => exact hb
  | step _ _ _ _ _ hb _ => exact hb

/-- `IsGrid g R C`: every in-bounds cell is Free (0) or Occupied (1). -/
def IsGrid (g : Pos → ℤ) (R C : ℕ) : Prop :=
  ∀ p, inB R C p → g p = 0 ∨ g p = 1

theorem mem_cellList {R C : ℕ} {p : Pos} : p ∈ cellList R C ↔ inB R C p := by
  obtain ⟨a, b⟩ := p
  unfold cellList
  rw [List.mem_flatMap]
  constructor
  · rintro ⟨i, hi, hp⟩
    rw [List.mem_map] at hp
    obtain ⟨j, hj, hpe⟩ := hp
    rw [List.mem_range] at hi hj
    have h1 : (i : ℤ) = a := congrArg Prod.fst hpe
    have h2 : (j : ℤ) = b := congrArg Prod.snd hpe
    exact ⟨by omega, by omega, by omega, by omega⟩
  · intro hb
    have hb' : 0 ≤ a ∧ a < (R : ℤ) ∧ 0 ≤ b ∧ b < (C : ℤ) := hb
    refine ⟨a.toNat, ?_, ?_⟩
    · rw [List.mem_range]; omega
    · rw [List.mem_map]
      refine ⟨b.toNat, ?_, ?_⟩
      · rw [List.mem_range]; omega
      · simp only [Prod.mk.injEq]
        constructor <;> omega

theorem mem_obstList {g : Pos → ℤ} {R C : ℕ} {p : Pos} :
    p ∈ obstList g R C ↔ inB R C p ∧ g p = 1 := by
  simp only [obstList, List.mem_filter, mem_cellList, decide_eq_true_eq]

/-- The global invariant of the brushfire BFS loop. -/
structure BInv (g : Pos → ℤ) (R C : ℕ) (moves : List Pos) (s : BState) : Prop where
  qmem : ∀ p ∈ s.q, inB R C p ∧ s.f p ≠ 0
  qmono : s.q.Pairwise (fun a b => s.f a ≤ s.f b)
  qspread : ∀ a ∈ s.q, ∀ b ∈ s.q, s.f a ≤ s.f b + 1
  fval : ∀ p, inB R C p → s.f p ≠ 0 →
    ∃ n : ℕ, IsLeastDist g R C moves p n ∧ s.f p = (n : ℤ) + 1
  frontier : ∀ t rest, s.q = t :: rest → ∀ p n, inB R C p →
    IsLeastDist g R C moves p n → (n : ℤ) + 1 ≤ s.f t → s.f p ≠ 0
  done_nb : ∀ u, inB R C u → s.f u ≠ 0 → u ∉ s.q →
    ∀ m ∈ moves, inB R C (u + m) → s.f (u + m) ≠ 0
  occ : ∀ p, inB R C p → g p = 1 → s.f p = 1

/-- The invariant carried through the neighbour loop of one dequeued cell `t`
whose level is `h`; `todo` is the list of moves still to be processed. -/
structure FInv (g : Pos → ℤ) (R C : ℕ) (moves : List Pos) (t : Pos) (h : ℤ)
    (todo : List Pos) (s : BState) : Prop where
  ft : s.f t = h
  hpos : 1 ≤ h
  tinB : inB R C t
  qmem : ∀ p ∈ s.q, inB R C p ∧ h ≤ s.f p ∧ s.f p ≤ h + 1
  qmono : s.q.Pairwise (fun a b => s.f a ≤ s.f b)
  fval : ∀ p, inB R C p → s.f p ≠ 0 →
    ∃ n : ℕ, IsLeastDist g R C moves p n ∧ s.f p = (n : ℤ) + 1
  frontier : ∀ p n, inB R C p → IsLeastDist g R C moves p n →
    (n : ℤ) + 1 ≤ h → s.f p ≠ 0
  done_nb : ∀ u, u ≠ t → inB R C u → s.f u ≠ 0 → u ∉ s.q →
    ∀ m ∈ moves, inB R C (u + m) → s.f (u + m) ≠ 0
  tproc : ∀ m ∈ moves, m ∉ todo → inB R C (t + m) → s.f (t + m) ≠ 0
  occ : ∀ p, inB R C p → g p = 1 → s.f p = 1

theorem oob_iff (R C : ℕ) (p : Pos) :
    (p.1 ≥ (R : ℤ) ∨ p.2 ≥ (C : ℤ) ∨ p.1 < 0 ∨ p.2 < 0) ↔ ¬ inB R C p := by
  simp only [inB]
  omega

theorem pos_add_ne_self {t m : Pos} (hm : m ≠ ((0 : ℤ), (0 : ℤ))) : t + m ≠ t := by
  intro hc
  apply hm
  have h1 : t.1 + m.1 = t.1 := congrArg Prod.fst hc
  have h2 : t.2 + m.2 = t.2 := congrArg Prod.snd hc
  obtain ⟨a, b⟩ := m
  simp only [Prod.mk.injEq]
  constructor <;> omega

theorem bstepCell_finv {g : Pos → ℤ} {R C : ℕ} {moves : List Pos}
    (hg : IsGrid g R C) (hmz : ∀ m ∈ moves, m ≠ ((0 : ℤ), (0 : ℤ)))
    {t : Pos} {h : ℤ} {m : Pos} {todo : List Pos} {s : BState}
    (hm : m ∈ moves) (hF : FInv g R C moves t h (m :: todo) s) :
    FInv g R C moves t h todo (bstepCell R C t m s) := by
  unfold bstepCell
  by_cases hoob : (t + m).1 ≥ (R : ℤ) ∨ (t + m).2 ≥ (C : ℤ) ∨ (t + m).1 < 0 ∨ (t + m).2 < 0
  · rw [if_pos hoob]
    have hnotin : ¬ inB R C (t + m) := (oob_iff R C (t + m)).mp hoob
    refine { hF with tproc := ?_ }
    intro m' hm' hnt hb
    by_cases hmm : m' = m
    · subst hmm; exact absurd hb hnotin
    · exact hF.tproc m' hm' (fun hc => (List.mem_cons.mp hc).elim hmm hnt) hb
  · rw [if_neg hoob]
    have hvin : inB R C (t + m) := by
      by_contra hc
      exact hoob ((oob_iff R C (t + m)).mpr hc)
    by_cases hfv : s.f (t + m) = 0
    · rw [if_pos hfv]
      -- the assignment branch
      have hvt : t + m ≠ t := pos_add_ne_self (hmz m hm)
      have hge1 : (1 : ℤ) ≤ h := hF.hpos
      have hnonzero_v : upd s.f (t + m) (s.f t + 1) (t + m) ≠ 0 := by
        rw [upd_same, hF.ft]; omega
      have hmono : ∀ x, s.f x ≠ 0 → upd s.f (t + m) (s.f t + 1) x ≠ 0 := by
        intro x hx
        by_cases hxv : x = t + m
        · subst hxv; exact hnonzero_v
        · rw [upd_other _ _ _ _ hxv]; exact hx
      have hkeep : ∀ x, x ≠ t + m → upd s.f (t + m) (s.f t + 1) x = s.f x := fun x hx =>
        upd_other _ _ _ _ hx
      have hgv : g (t + m) = 0 := by
        rcases hg (t + m) hvin with h0 | h1
        · exact h0
        · exact absurd hfv (by rw [hF.occ (t + m) hvin h1]; omega)
      have hqne : ∀ p ∈ s.q, p ≠ t + m := by
        intro p hp hc
        have := (hF.qmem p hp).2.1
        rw [hc, hfv] at this
        omega
      refine ⟨?_, hF.hpos, hF.tinB, ?_, ?_, ?_, ?_, ?_, ?_, ?_⟩
      · -- ft
        show upd s.f (t + m) (s.f t + 1) t = h
        rw [hkeep t (fun hc => hvt hc.symm), hF.ft]
      · -- qmem
        intro p hp
        dsimp only at hp ⊢
        rcases List.mem_append.mp hp with hpq | hpv
        · obtain ⟨hbi, hlo, hhi⟩ := hF.qmem p hpq
          rw [hkeep p (hqne p hpq)]
          exact ⟨hbi, hlo, hhi⟩
        · rw [List.mem_singleton] at hpv
          subst hpv
          rw [upd_same, hF.ft]
          exact ⟨hvin, by omega, by omega⟩
      · -- qmono
        dsimp only
        rw [List.pairwise_append]
        refine ⟨?_, List.pairwise_singleton _ _, ?_⟩
        · exact hF.qmono.imp_of_mem (fun ha hb hab => by
            rw [hkeep _ (hqne _ ha), hkeep _ (hqne _ hb)]; exact hab)
        · intro a ha b hb
          rw [List.mem_singleton] at hb
          subst hb
          rw [hkeep a (hqne a ha), upd_same, hF.ft]
          exact (hF.qmem a ha).2.2
      · -- fval
        intro p hbp hfp
        dsimp only at hfp ⊢
        by_cases hpv : p = t + m
        · subst hpv
          obtain ⟨k, hk, hfk⟩ := hF.fval t hF.tinB (by rw [hF.ft]; omega)
          refine ⟨k + 1, ⟨ReachB.step k t m hk.1 hm hvin hgv, ?_⟩, ?_⟩
          · intro k' hk'
            by_contra hlt
            push_neg at hlt
            obtain ⟨n₀, hn₀⟩ := exists_least_dist ⟨k', hk'⟩
            have hle : n₀ ≤ k' := hn₀.2 k' hk'
            have : s.f (t + m) ≠ 0 := by
              refine hF.frontier (t + m) n₀ hvin hn₀ ?_
              rw [hF.ft] at hfk
              omega
            exact this hfv
          · rw [upd_same, hfk]
            push_cast
            ring
        · rw [hkeep p hpv] at hfp ⊢
          exact hF.fval p hbp hfp
      · -- frontier
        intro p n hbp hn hle
        dsimp only
        exact hmono p (hF.frontier p n hbp hn hle)
      · -- done_nb
        intro u hut hbu hfu hnu m'' hm'' hbm
        dsimp only at hfu hnu ⊢
        have hnu' : u ∉ s.q ∧ u ≠ t + m := by
          constructor
          · intro hc; exact hnu (List.mem_append.mpr (Or.inl hc))
          · intro hc; exact hnu (List.mem_append.mpr (Or.inr (by rw [hc]; exact List.mem_singleton_self _)))
        rw [hkeep u hnu'.2] at hfu
        exact hmono _ (hF.done_nb u hut hbu hfu hnu'.1 m'' hm'' hbm)
      · -- tproc
        intro m' hm' hnt hb
        dsimp only
        by_cases htv : t + m' = t + m
        · rw [htv]; exact hnonzero_v
        · have hmm : m' ≠ m := fun hc => htv (by rw [hc])
          rw [hkeep _ htv]
          exact hF.tproc m' hm' (fun hc => (List.mem_cons.mp hc).elim hmm hnt) hb
      · -- occ
        intro p hbp hgp
        dsimp only
        have h1 := hF.occ p hbp hgp
        have hpv : p ≠ t + m := by
          intro hc
          rw [hc, hfv] at h1
          omega
        rw [hkeep p hpv]
        exact h1
    · rw [if_neg hfv]
      refine { hF with tproc := ?_ }
      intro m' hm' hnt hb
      by_cases hmm : m' = m
      · subst hmm; exact hfv
      · exact hF.tproc m' hm' (fun hc => (List.mem_cons.mp hc).elim hmm hnt) hb

/-- Number of still-unvisited (zero) in-bounds cells. -/
def zcount (R C : ℕ) (f : Pos → ℤ) : ℕ :=
  ((cells R C).filter (fun p => f p = 0)).card

/-- Decreasing measure for the brushfire loop. -/
def bphi (R C : ℕ) (s : BState) : ℕ := s.q.length + 2 * zcount R C s.f

theorem zcount_upd {R C : ℕ} {f : Pos → ℤ} {v : Pos} {w : ℤ}
    (hv : inB R C v) (hfv : f v = 0) (hw : w ≠ 0) :
    zcount R C (upd f v w) + 1 = zcount R C f := by
  unfold zcount
  have hset : (cells R C).filter (fun p => upd f v w p = 0) =
      ((cells R C).filter (fun p => f p = 0)).erase v := by
    ext x
    rw [Finset.mem_erase, Finset.mem_filter, Finset.mem_filter]
    constructor
    · rintro ⟨hx, hx0⟩
      by_cases hxv : x = v
      · subst hxv; rw [upd_same] at hx0; exact absurd hx0 hw
      · rw [upd_other _ _ _ _ hxv] at hx0; exact ⟨hxv, hx, hx0⟩
    · rintro ⟨hxv, hx, hx0⟩
      rw [upd_other _ _ _ _ hxv]
      exact ⟨hx, hx0⟩
  rw [hset]
  have hvmem : v ∈ (cells R C).filter (fun p => f p = 0) :=
    Finset.mem_filter.mpr ⟨mem_cells.mpr hv, hfv⟩
  rw [Finset.card_erase_of_mem hvmem]
  have : 0 < ((cells R C).filter (fun p => f p = 0)).card :=
    Finset.card_pos.mpr ⟨v, hvmem⟩
  omega

theorem bstepCell_phi {g : Pos → ℤ} {R C : ℕ} {moves : List Pos}
    {t : Pos} {h : ℤ} {m : Pos} {todo : List Pos} {s : BState}
    (hF : FInv g R C moves t h (m :: todo) s) :
    bphi R C (bstepCell R C t m s) ≤ bphi R C s := by
  unfold bstepCell
  by_cases hoob : (t + m).1 ≥ (R : ℤ) ∨ (t + m).2 ≥ (C : ℤ) ∨ (t + m).1 < 0 ∨ (t + m).2 < 0
  · rw [if_pos hoob]
  · rw [if_neg hoob]
    by_cases hfv : s.f (t + m) = 0
    · rw [if_pos hfv]
      have hvin : inB R C (t + m) := by
        by_contra hc
        exact hoob ((oob_iff R C (t + m)).mpr hc)
      have hw : s.f t + 1 ≠ 0 := by
        have := hF.ft
        have := hF.hpos
        omega
      have hz := zcount_upd hvin hfv hw
      unfold bphi
      dsimp only
      rw [List.length_append, List.length_singleton]
      omega
    · rw [if_neg hfv]

theorem fold_finv {g : Pos → ℤ} {R C : ℕ} {moves : List Pos}
    (hg : IsGrid g R C) (hmz : ∀ m ∈ moves, m ≠ ((0 : ℤ), (0 : ℤ)))
    {t : Pos} {h : ℤ} :
    ∀ (todo : List Pos) (s : BState), (∀ m ∈ todo, m ∈ moves) →
      FInv g R C moves t h todo s →
      FInv g R C moves t h [] (todo.foldl (fun a m => bstepCell R C t m a) s) ∧
      bphi R C (todo.foldl (fun a m => bstepCell R C t m a) s) ≤ bphi R C s := by
  intro todo
  induction todo with
  | nil => intro s _ hF; exact ⟨hF, le_refl _⟩
  | cons m rest ih =>
    intro s hsub hF
    have hm : m ∈ moves := hsub m (List.mem_cons_self m rest)
    have h1 : FInv g R C moves t h rest (bstepCell R C t m s) :=
      bstepCell_finv hg hmz hm hF
    have h2 := bstepCell_phi hF
    have h3 := ih (bstepCell R C t m s) (fun x hx => hsub x (List.mem_cons_of_mem m hx)) h1
    exact ⟨h3.1, le_trans h3.2 h2⟩

theorem pop_finv {g : Pos → ℤ} {R C : ℕ} {moves : List Pos}
    {s : BState} {t : Pos} {rest : List Pos}
    (hB : BInv g R C moves s) (hq : s.q = t :: rest) :
    FInv g R C moves t (s.f t) moves { f := s.f, q := rest } := by
  have htq : t ∈ s.q := by rw [hq]; exact List.mem_cons_self t rest
  obtain ⟨htB, htne⟩ := hB.qmem t htq
  have hrest : ∀ p ∈ rest, p ∈ s.q := by
    intro p hp; rw [hq]; exact List.mem_cons_of_mem t hp
  have hmono := hB.qmono
  rw [hq, List.pairwise_cons] at hmono
  refine ⟨rfl, ?_, htB, ?_, hmono.2, hB.fval, hB.frontier t rest hq, ?_, ?_, hB.occ⟩
  · -- hpos
    obtain ⟨n, _, hn⟩ := hB.fval t htB htne
    omega
  · -- qmem
    intro p hp
    refine ⟨(hB.qmem p (hrest p hp)).1, hmono.1 p hp, hB.qspread p (hrest p hp) t htq⟩
  · -- done_nb
    intro u hut hbu hfu hnu
    refine hB.done_nb u hbu hfu ?_
    rw [hq]
    intro hc
    rcases List.mem_cons.mp hc with hc1 | hc2
    · exact hut hc1
    · exact hnu hc2
  · -- tproc
    intro m hm hnm
    exact absurd hm hnm

theorem post_binv {g : Pos → ℤ} {R C : ℕ} {moves : List Pos}
    {s' : BState} {t : Pos} {h : ℤ}
    (hF : FInv g R C moves t h [] s') : BInv g R C moves s' := by
  have hone : (1 : ℤ) ≤ h := hF.hpos
  refine ⟨?_, hF.qmono, ?_, hF.fval, ?_, ?_, hF.occ⟩
  · -- qmem
    intro p hp
    obtain ⟨hbi, hlo, _⟩ := hF.qmem p hp
    exact ⟨hbi, by omega⟩
  · -- qspread
    intro a ha b hb
    obtain ⟨_, _, hha⟩ := hF.qmem a ha
    obtain ⟨_, hlb, _⟩ := hF.qmem b hb
    omega
  · -- frontier
    intro t' rest' hq' p n hbp hn hle
    have ht'q : t' ∈ s'.q := by rw [hq']; exact List.mem_cons_self t' rest'
    obtain ⟨_, hlo', hhi'⟩ := hF.qmem t' ht'q
    by_cases hcase : (n : ℤ) + 1 ≤ h
    · exact hF.frontier p n hbp hn hcase
    · -- here n = h and the head level has advanced to h + 1
      have hn1 : (n : ℤ) = h := by omega
      have hnpos : 1 ≤ n := by omega
      obtain ⟨n', rfl⟩ : ∃ n', n = n' + 1 := ⟨n - 1, by omega⟩
      cases hn.1 with
      | step _ q₀ m₀ hr hm₀ hbv hgv =>
        obtain ⟨n₀, hn₀⟩ := exists_least_dist ⟨n', hr⟩
        have hn₀le : n₀ ≤ n' := hn₀.2 n' hr
        have hfq₀ : s'.f q₀ ≠ 0 := by
          refine hF.frontier q₀ n₀ (reachB_inB hr) hn₀ ?_
          omega
        obtain ⟨k₀, hk₀, hfq⟩ := hF.fval q₀ (reachB_inB hr) hfq₀
        have hk₀le : k₀ ≤ n₀ := hk₀.2 n₀ hn₀.1
        have hfq₀lt : s'.f q₀ < s'.f t' := by
          have hft' : s'.f t' = h + 1 := by omega
          omega
        have hq₀notin : q₀ ∉ s'.q := by
          intro hc
          have hmono := hF.qmono
          rw [hq', List.pairwise_cons] at hmono
          rcases List.mem_cons.mp (hq' ▸ hc) with hc1 | hc2
          · rw [hc1] at hfq₀lt; omega
          · have := hmono.1 q₀ hc2
            omega
        by_cases hq₀t : q₀ = t
        · subst hq₀t
          exact hF.tproc m₀ hm₀ (List.not_mem_nil m₀) hbv
        · exact hF.done_nb q₀ hq₀t (reachB_inB hr) hfq₀ hq₀notin m₀ hm₀ hbv
  · -- done_nb
    intro u hbu hfu hnu m hm hbm
    by_cases hut : u = t
    · subst hut
      exact hF.tproc m hm (List.not_mem_nil m) hbm
    · exact hF.done_nb u hut hbu hfu hnu m hm hbm

theorem bstep_nil {R C : ℕ} {moves : List Pos} {s : BState} (h : s.q = []) :
    bstep R C moves s = s := by
  unfold bstep
  rw [h]

theorem bstep_cons {R C : ℕ} {moves : List Pos} {s : BState} {t : Pos} {rest : List Pos}
    (h : s.q = t :: rest) :
    bstep R C moves s =
      moves.foldl (fun a m => bstepCell R C t m a) { f := s.f, q := rest } := by
  unfold bstep
  rw [h]

theorem bstep_preserves {g : Pos → ℤ} {R C : ℕ} {moves : List Pos}
    (hg : IsGrid g R C) (hmz : ∀ m ∈ moves, m ≠ ((0 : ℤ), (0 : ℤ)))
    {s : BState} (hB : BInv g R C moves s) (hne : s.q ≠ []) :
    BInv g R C moves (bstep R C moves s) ∧ bphi R C (bstep R C moves s) < bphi R C s := by
  obtain ⟨t, rest, hq⟩ : ∃ t rest, s.q = t :: rest := by
    cases hcase : s.q with
    | nil => exact absurd hcase hne
    | cons a l => exact ⟨a, l, rfl⟩
  rw [bstep_cons hq]
  have hpop := pop_finv hB hq
  have hfold := fold_finv hg hmz moves { f := s.f, q := rest } (fun m hm => hm) hpop
  refine ⟨post_binv hfold.1, ?_⟩
  have hlen : bphi R C { f := s.f, q := rest } + 1 = bphi R C s := by
    unfold bphi
    dsimp only
    rw [hq]
    simp only [List.length_cons]
    omega
  omega

theorem binv_init {g : Pos → ℤ} {R C : ℕ} {moves : List Pos} (hg : IsGrid g R C) :
    BInv g R C moves { f := g, q := obstList g R C } := by
  have hmem : ∀ p ∈ obstList g R C, inB R C p ∧ g p = 1 := fun p hp => mem_obstList.mp hp
  have hval : ∀ p ∈ obstList g R C, g p = 1 := fun p hp => (hmem p hp).2
  refine ⟨?_, ?_, ?_, ?_, ?_, ?_, ?_⟩
  · intro p hp
    dsimp only at hp ⊢
    exact ⟨(hmem p hp).1, by rw [(hmem p hp).2]; omega⟩
  · exact List.pairwise_of_forall_mem_list (fun a ha b hb => by
      dsimp only
      rw [hval a ha, hval b hb])
  · intro a ha b hb
    dsimp only
    rw [hval a ha, hval b hb]
    omega
  · intro p hb hf
    dsimp only at hf ⊢
    have hp1 : g p = 1 := by
      rcases hg p hb with h0 | h1
      · exact absurd h0 hf
      · exact h1
    refine ⟨0, ⟨ReachB.base p hb hp1, fun k _ => Nat.zero_le k⟩, by omega⟩
  · intro t rest hq p n hbp hn hle
    dsimp only at hle ⊢
    have hq' : obstList g R C = t :: rest := hq
    have ht : g t = 1 := hval t (by rw [hq']; exact List.mem_cons_self t rest)
    rw [ht] at hle
    have hn0 : n = 0 := by omega
    subst hn0
    cases hn.1 with
    | base _ _ ho => rw [ho]; omega
  · intro u hbu hfu hnu m hm hbm
    dsimp only at hfu hnu
    have hu1 : g u = 1 := by
      rcases hg u hbu with h0 | h1
      · exact absurd h0 hfu
      · exact h1
    exact absurd (mem_obstList.mpr ⟨hbu, hu1⟩) hnu
  · intro p hb h1
    dsimp only
    rw [h1]

theorem length_cellList (R C : ℕ) : (cellList R C).length = R * C := by
  unfold cellList
  rw [List.length_flatMap]
  have hfn : (List.length ∘ fun (i : ℕ) =>
      List.map (fun (j : ℕ) => ((i : ℤ), (j : ℤ))) (List.range C)) = fun _ => C := by
    funext i
    simp
  rw [hfn, List.map_const', List.sum_replicate, List.length_range, smul_eq_mul]

theorem bphi_init {g : Pos → ℤ} (R C : ℕ) :
    bphi R C { f := g, q := obstList g R C } ≤ bfuel R C := by
  unfold bphi bfuel
  dsimp only
  have h1 : (obstList g R C).length ≤ R * C := by
    unfold obstList
    calc ((cellList R C).filter (fun p => g p = 1)).length
        ≤ (cellList R C).length := List.length_filter_le _ _
      _ = R * C := length_cellList R C
  have h2 : zcount R C g ≤ R * C := by
    unfold zcount
    calc ((cells R C).filter (fun p => g p = 0)).card
        ≤ (cells R C).card := Finset.card_filter_le _ _
      _ = R * C := card_cells R C
  omega

theorem brushfire_run {g : Pos → ℤ} {R C : ℕ} {moves : List Pos}
    (hg : IsGrid g R C) (hmz : ∀ m ∈ moves, m ≠ ((0 : ℤ), (0 : ℤ))) :
    BInv g R C moves (runN (bstep R C moves) (bfuel R C) { f := g, q := obstList g R C }) ∧
    (runN (bstep R C moves) (bfuel R C) { f := g, q := obstList g R C }).q = [] :=
  runN_completes (bstep R C moves) (BInv g R C moves) (fun s => s.q = []) (bphi R C)
    (fun s hB hnd => bstep_preserves hg hmz hB hnd)
    (fun _ hd => bstep_nil hd)
    (fun s _ h0 => by
      unfold bphi at h0
      exact List.length_eq_zero.mp (by omega))
    (bfuel R C) _ (binv_init hg) (bphi_init R C)

theorem final_reached {g : Pos → ℤ} {R C : ℕ} {moves : List Pos} {s : BState}
    (hB : BInv g R C moves s) (hq : s.q = []) :
    ∀ n p, inB R C p → IsLeastDist g R C moves p n → s.f p ≠ 0 := by
  intro n
  induction n using Nat.strong_induction_on with
  | _ n ih =>
    intro p hbp hn
    cases n with
    | zero =>
      cases hn.1 with
      | base _ _ ho =>
        rw [hB.occ p hbp ho]
        omega
    | succ n' =>
      cases hn.1 with
      | step _ q₀ m₀ hr hm hb hgf =>
        obtain ⟨n₀, hn₀⟩ := exists_least_dist ⟨n', hr⟩
        have hlt : n₀ < n' + 1 := Nat.lt_succ_of_le (hn₀.2 n' hr)
        have hfq : s.f q₀ ≠ 0 := ih n₀ hlt q₀ (reachB_inB hr) hn₀
        have hnotq : q₀ ∉ s.q := by rw [hq]; exact List.not_mem_nil q₀
        exact hB.done_nb q₀ (reachB_inB hr) hfq hnotq m₀ hm hb

/-- Full functional specification of the brushfire BFS run: Occupied cells
keep value 1, Free cells reachable from some obstacle get 1 + their least
hop-distance, and unreachable Free cells stay 0. -/
theorem brushfire_run_spec {g : Pos → ℤ} {R C : ℕ} {moves : List Pos}
    (hg : IsGrid g R C) (hmz : ∀ m ∈ moves, m ≠ ((0 : ℤ), (0 : ℤ))) :
    (∀ p, inB R C p → g p = 1 →
      (runN (bstep R C moves) (bfuel R C) { f := g, q := obstList g R C }).f p = 1) ∧
    (∀ p, inB R C p → g p = 0 →
      ((∃ n : ℕ, IsLeastDist g R C moves p n ∧
          (runN (bstep R C moves) (bfuel R C) { f := g, q := obstList g R C }).f p = (n : ℤ) + 1) ∨
       ((∀ k, ¬ ReachB g R C moves k p) ∧
          (runN (bstep R C moves) (bfuel R C) { f := g, q := obstList g R C }).f p = 0))) := by
  obtain ⟨hB, hq⟩ := brushfire_run hg hmz
  constructor
  · intro p hbp ho
    exact hB.occ p hbp ho
  · intro p hbp _
    by_cases hz : (runN (bstep R C moves) (bfuel R C) { f := g, q := obstList g R C }).f p = 0
    · refine Or.inr ⟨?_, hz⟩
      intro k hk
      obtain ⟨n, hn⟩ := exists_least_dist ⟨k, hk⟩
      exact final_reached hB hq n p hbp hn hz
    · exact Or.inl (hB.fval p hbp hz)

/-- If the grid has at least one Occupied cell and the move set contains the
four axis moves, every in-bounds Free cell is reachable by the brushfire. -/
theorem reach_of_obstacle {g : Pos → ℤ} {R C : ℕ} {moves : List Pos}
    (hg : IsGrid g R C)
    (hax : ((1 : ℤ), (0 : ℤ)) ∈ moves ∧ ((-1 : ℤ), (0 : ℤ)) ∈ moves ∧
           ((0 : ℤ), (1 : ℤ)) ∈ moves ∧ ((0 : ℤ), (-1 : ℤ)) ∈ moves)
    {o : Pos} (hoB : inB R C o) (ho : g o = 1) :
    ∀ p, inB R C p → g p = 0 → ∃ k, ReachB g R C moves k p := by
  suffices hs : ∀ d p, inB R C p → g p = 0 →
      ((p.1 - o.1).natAbs + (p.2 - o.2).natAbs) = d → ∃ k, ReachB g R C moves k p by
    intro p hb hf
    exact hs ((p.1 - o.1).natAbs + (p.2 - o.2).natAbs) p hb hf rfl
  intro d
  induction d using Nat.strong_induction_on with
  | _ d ih =>
    intro p hbp hfp hd
    have hpo : p ≠ o := by
      intro hc
      rw [hc, ho] at hfp
      omega
    have hdpos : 1 ≤ d := by
      rcases Nat.eq_zero_or_pos d with h0 | h1
      · exfalso
        apply hpo
        obtain ⟨a, b⟩ := p
        obtain ⟨a', b'⟩ := o
        rw [h0] at hd
        simp only [Prod.mk.injEq]
        constructor <;> omega
      · exact h1
    -- choose a predecessor q adjacent to p, one step closer to o, in bounds
    obtain ⟨q, m, hm, hqp, hqin, hqd⟩ :
        ∃ q m, m ∈ moves ∧ p = q + m ∧ inB R C q ∧
          ((q.1 - o.1).natAbs + (q.2 - o.2).natAbs) = d - 1 := by
      obtain ⟨a, b⟩ := p
      obtain ⟨a', b'⟩ := o
      simp only [inB] at hbp hoB
      by_cases hrow : a < a'
      · refine ⟨(a + 1, b), ((-1 : ℤ), (0 : ℤ)), hax.2.1, ?_, ?_, ?_⟩
        · rw [Prod.mk_add_mk]; simp only [Prod.mk.injEq]; constructor <;> ring
        · simp only [inB]; omega
        · dsimp only; omega
      · by_cases hrow2 : a' < a
        · refine ⟨(a - 1, b), ((1 : ℤ), (0 : ℤ)), hax.1, ?_, ?_, ?_⟩
          · rw [Prod.mk_add_mk]; simp only [Prod.mk.injEq]; constructor <;> ring
          · simp only [inB]; omega
          · dsimp only; omega
        · by_cases hcol : b < b'
          · refine ⟨(a, b + 1), ((0 : ℤ), (-1 : ℤ)), hax.2.2.2, ?_, ?_, ?_⟩
            · rw [Prod.mk_add_mk]; simp only [Prod.mk.injEq]; constructor <;> ring
            · simp only [inB]; omega
            · dsimp only; omega
          · have hcol2 : b' < b := by
              rcases lt_trichotomy b b' with h | h | h
              · exact absurd h hcol
              · exfalso; apply hpo; simp only [Prod.mk.injEq]; omega
              · exact h
            refine ⟨(a, b - 1), ((0 : ℤ), (1 : ℤ)), hax.2.2.1, ?_, ?_, ?_⟩
            · rw [Prod.mk_add_mk]; simp only [Prod.mk.injEq]; constructor <;> ring
            · simp only [inB]; omega
            · dsimp only; omega
    rcases hg q hqin with hq0 | hq1
    · -- q free: recurse
      obtain ⟨k, hk⟩ := ih (d - 1) (by omega) q hqin hq0 hqd
      refine ⟨k + 1, ?_⟩
      rw [hqp]
      exact ReachB.step k q m hk hm (hqp ▸ hbp) (hqp ▸ hfp)
    · -- q occupied: one step
      refine ⟨1, ?_⟩
      rw [hqp]
      exact ReachB.step 0 q m (ReachB.base q hqin hq1) hm (hqp ▸ hbp) (hqp ▸ hfp)

/-- The brushfire move pattern selected by a valid connectivity value. -/
def bmoves (c : ℤ) : List Pos :=
  if c = 4 then bmoves4 else if c = 8 then bmoves8 else []

theorem bmoves_nonzero {c : ℤ} (hc : c = 4 ∨ c = 8) :
    ∀ m ∈ bmoves c, m ≠ ((0 : ℤ), (0 : ℤ)) := by
  rcases hc with rfl | rfl <;> decide

theorem bmoves_axes {c : ℤ} (hc : c = 4 ∨ c = 8) :
    ((1 : ℤ), (0 : ℤ)) ∈ bmoves c ∧ ((-1 : ℤ), (0 : ℤ)) ∈ bmoves c ∧
    ((0 : ℤ), (1 : ℤ)) ∈ bmoves c ∧ ((0 : ℤ), (-1 : ℤ)) ∈ bmoves c := by
  rcases hc with rfl | rfl <;> decide

theorem compute_obstacle_distance_ok {g : Pos → ℤ} {R C : ℕ} {c : ℤ}
    (hc : c = 4 ∨ c = 8) :
    compute_obstacle_distance g R C c =
      .ok (fun p =>
        (runN (bstep R C (bmoves c)) (bfuel R C) { f := g, q := obstList g R C }).f p - 1) := by
  rcases hc with rfl | rfl <;> rfl

/-- C1 (amended): on a 0/1 grid with at least one Occupied cell and
connectivity 4 or 8, `compute_obstacle_distance` succeeds, Occupied cells
read 0, and every Free cell reads exactly its minimum BFS hop-distance to
the nearest Occupied cell under the chosen connectivity's move set. -/
theorem C1_brushfire_min_hop_distance {g : Pos → ℤ} {R C : ℕ} {c : ℤ}
    (hg : IsGrid g R C) (hc : c = 4 ∨ c = 8)
    (hobs : ∃ o, inB R C o ∧ g o = 1) :
    ∃ res, compute_obstacle_distance g R C c = .ok res ∧
      (∀ p, inB R C p → g p = 1 → res p = 0) ∧
      (∀ p, inB R C p → g p = 0 →
        ∃ n : ℕ, IsLeastDist g R C (bmoves c) p n ∧ res p = (n : ℤ)) := by
  refine ⟨_, compute_obstacle_distance_ok hc, ?_, ?_⟩
  · intro p hbp ho
    have hs := (brushfire_run_spec hg (bmoves_nonzero hc)).1 p hbp ho
    rw [hs]
    ring
  · intro p hbp hf
    obtain ⟨o, hoB, ho⟩ := hobs
    have hreach := reach_of_obstacle hg (bmoves_axes hc) hoB ho p hbp hf
    rcases (brushfire_run_spec hg (bmoves_nonzero hc)).2 p hbp hf with ⟨n, hn, hv⟩ | ⟨hnone, _⟩
    · refine ⟨n, hn, ?_⟩
      rw [hv]
      ring
    · obtain ⟨k, hk⟩ := hreach
      exact absurd hk (hnone k)

/-- C5 (amended): on a 0/1 grid with at least one Occupied cell and
connectivity 4 or 8, every in-bounds value of the distance transform is
non-negative, and Occupied cells are exactly 0. -/
theorem C5_brushfire_nonneg {g : Pos → ℤ} {R C : ℕ} {c : ℤ}
    (hg : IsGrid g R C) (hc : c = 4 ∨ c = 8)
    (hobs : ∃ o, inB R C o ∧ g o = 1) :
    ∃ res, compute_obstacle_distance g R C c = .ok res ∧
      (∀ p, inB R C p → 0 ≤ res p) ∧
      (∀ p, inB R C p → g p = 1 → res p = 0) := by
  obtain ⟨res, heq, hocc, hfree⟩ := C1_brushfire_min_hop_distance hg hc hobs
  refine ⟨res, heq, ?_, hocc⟩
  intro p hbp
  rcases hg p hbp with h0 | h1
  · obtain ⟨n, _, hv⟩ := hfree p hbp h0
    rw [hv]
    omega
  · rw [hocc p hbp h1]

/-- The all-Free grid used by the counterexamples. -/
def gfree : Pos → ℤ := fun _ => 0

/-- The spec's concrete grid: 3×3, single obstacle at the centre. -/
def g33 : Pos → ℤ := fun p => if p = (1, 1) then 1 else 0

theorem C1_brushfire_min_hop_distance_witness :
    (IsGrid g33 3 3 ∧ ((4 : ℤ) = 4 ∨ (4 : ℤ) = 8) ∧ (∃ o, inB 3 3 o ∧ g33 o = 1)) ∧
    (∃ res, compute_obstacle_distance g33 3 3 4 = .ok res ∧
      (∀ p, inB 3 3 p → g33 p = 1 → res p = 0) ∧
      (∀ p, inB 3 3 p → g33 p = 0 →
        ∃ n : ℕ, IsLeastDist g33 3 3 (bmoves 4) p n ∧ res p = (n : ℤ))) := by
  have hg : IsGrid g33 3 3 := by
    intro p _
    by_cases h : p = (1, 1)
    · right
      show (if p = ((1 : ℤ), (1 : ℤ)) then (1 : ℤ) else 0) = 1
      rw [if_pos h]
    · left
      show (if p = ((1 : ℤ), (1 : ℤ)) then (1 : ℤ) else 0) = 0
      rw [if_neg h]
  have hobs : ∃ o, inB 3 3 o ∧ g33 o = 1 := ⟨(1, 1), by decide, rfl⟩
  exact ⟨⟨hg, Or.inl rfl, hobs⟩,
    C1_brushfire_min_hop_distance hg (Or.inl rfl) hobs⟩

theorem C5_brushfire_nonneg_witness :
    (IsGrid g33 3 3 ∧ ((8 : ℤ) = 4 ∨ (8 : ℤ) = 8) ∧ (∃ o, inB 3 3 o ∧ g33 o = 1)) ∧
    (∃ res, compute_obstacle_distance g33 3 3 8 = .ok res ∧
      (∀ p, inB 3 3 p → 0 ≤ res p) ∧
      (∀ p, inB 3 3 p → g33 p = 1 → res p = 0)) := by
  have hg : IsGrid g33 3 3 := by
    intro p _
    by_cases h : p = (1, 1)
    · right
      show (if p = ((1 : ℤ), (1 : ℤ)) then (1 : ℤ) else 0) = 1
      rw [if_pos h]
    · left
      show (if p = ((1 : ℤ), (1 : ℤ)) then (1 : ℤ) else 0) = 0
      rw [if_neg h]
  have hobs : ∃ o, inB 3 3 o ∧ g33 o = 1 := ⟨(1, 1), by decide, rfl⟩
  exact ⟨⟨hg, Or.inr rfl, hobs⟩, C5_brushfire_nonneg hg (Or.inr rfl) hobs⟩

/-- C1 counterexample: on the all-Free 1×1 grid (no Occupied cell), the Free
cell (0,0) reads -1, which is no cell's hop distance, so the unconditional
claim fails. -/
theorem C1_brushfire_counterexample :
    gfree (0, 0) = 0 ∧ brushAt gfree 1 1 4 (0, 0) = -1 ∧
    ∀ n : ℕ, ¬ (IsLeastDist gfree 1 1 bmoves4 (0, 0) n ∧
        brushAt gfree 1 1 4 (0, 0) = (n : ℤ)) := by
  refine ⟨rfl, by decide, ?_⟩
  rintro n ⟨_, hv⟩
  have : (-1 : ℤ) = (n : ℤ) := by
    rw [← hv]
    decide
  omega

/-- C5 counterexample: on the all-Free 1×2 grid the distance transform
returns -1 everywhere, violating non-negativity. -/
theorem C5_brushfire_counterexample :
    gfree (0, 0) = 0 ∧ ¬ (0 ≤ brushAt gfree 1 2 4 (0, 0)) := by
  constructor
  · rfl
  · decide

/-! ## Wavefront planner (src/wavefront.py) -/

/-- Wavefront move pattern for 4-connectivity, in source order. -/
def wmoves4 : List Pos := [(1,0),(0,1),(-1,0),(0,-1)]

/-- Wavefront move pattern for 8-connectivity, in source order. -/
def wmoves8 : List Pos := [(-1,0),(-1,-1),(0,-1),(1,-1),(1,0),(1,1),(0,1),(-1,1)]

/-- The wavefront move pattern selected by a valid connectivity value. -/
def wmoves (c : ℤ) : List Pos :=
  if c = 4 then wmoves4 else if c = 8 then wmoves8 else []

/-- `is_valid_cell` from src/wavefront.py: inside the array and not marked
infinite (an obstacle). -/
def is_valid_cell (f : Pos → WithTop ℤ) (R C : ℕ) (p : Pos) : Prop :=
  ¬ (p.1 < 0 ∨ p.1 ≥ (R : ℤ)) ∧ ¬ (p.2 < 0 ∨ p.2 ≥ (C : ℤ)) ∧ f p ≠ ⊤

instance (f : Pos → WithTop ℤ) (R C : ℕ) (p : Pos) : Decidable (is_valid_cell f R C p) := by
  unfold is_valid_cell; infer_instance

/-- State of the wavefront BFS relaxation loop. -/
structure WState where
  f : Pos → WithTop ℤ
  q : List Pos

/-- One neighbour visit of the wavefront loop: skip invalid cells, relax a
cell whose value strictly exceeds `result[t] + 1` and re-enqueue it. -/
def wstepCell (R C : ℕ) (t : Pos) (m : Pos) (s : WState) : WState :=
  if ¬ is_valid_cell s.f R C (t + m) then s
  else if s.f (t + m) ≠ ⊤ ∧ s.f t + 1 < s.f (t + m) then
    { f := upd s.f (t + m) (s.f t + 1), q := s.q ++ [t + m] }
  else s

/-- One iteration of the wavefront while-loop. -/
def wstep (R C : ℕ) (moves : List Pos) (s : WState) : WState :=
  match s.q with
  | [] => s
  | t :: rest => moves.foldl (fun a m => wstepCell R C t m a) { f := s.f, q := rest }

/-- The initialization loop: obstacles become infinity, other cells get
their grid value plus the 1e9 sentinel. -/
def winit (g : Pos → ℤ) (R C : ℕ) : Pos → WithTop ℤ :=
  fun p =>
    if inB R C p then (if g p = 1 then ⊤ else ((g p + 10 ^ 9 : ℤ) : WithTop ℤ))
    else ((0 : ℤ) : WithTop ℤ)

/-- numpy index wrapping for a single axis: negative indices count from the
end. -/
def npWrap (n : ℕ) (i : ℤ) : ℤ := if i < 0 then i + n else i

/-- Fuel sufficient for the wavefront relaxation
(measure `|queue| + 2·Σ cell values`). -/
def wfuel (R C : ℕ) : ℕ := 2 * (R * C) * 10 ^ 9 + 2

/-- The visualization copy: infinity replaced by 0 for display. -/
def wvis (f : Pos → WithTop ℤ) : Pos → WithTop ℤ :=
  fun p => if f p = ⊤ then ((0 : ℤ) : WithTop ℤ) else f p

/-- The wavefront while-loop with an explicit fuel bound: stops as soon as
the queue is empty (the loop condition), so evaluation is cheap even though
the fuel bound is enormous. -/
def wrunGo (R C : ℕ) (moves : List Pos) : ℕ → WState → WState
  | 0, s => s
  | n + 1, s =>
    match s.q with
    | [] => s
    | t :: rest =>
      wrunGo R C moves n (moves.foldl (fun a m => wstepCell R C t m a) { f := s.f, q := rest })

theorem wrunGo_eq_runN (R C : ℕ) (moves : List Pos) :
    ∀ (n : ℕ) (s : WState), wrunGo R C moves n s = runN (wstep R C moves) n s := by
  intro n
  induction n with
  | zero => intro s; rfl
  | succ k ih =>
    intro s
    show wrunGo R C moves (k + 1) s = runN (wstep R C moves) k (wstep R C moves s)
    cases hq : s.q with
    | nil =>
      have hfix : wstep R C moves s = s := by unfold wstep; rw [hq]
      rw [hfix, runN_fix _ _ _ hfix]
      unfold wrunGo
      rw [hq]
    | cons t rest =>
      have hstep : wstep R C moves s =
          moves.foldl (fun a m => wstepCell R C t m a) { f := s.f, q := rest } := by
        unfold wstep; rw [hq]
      rw [hstep]
      unfold wrunGo
      rw [hq]
      exact ih _

/-- `compute_wavefront` from src/wavefront.py: goal-seeded BFS relaxation;
returns the distance map and the display map.  Setting the goal cell uses
numpy indexing (wrap negative indices, IndexError when out of range). -/
def compute_wavefront (g : Pos → ℤ) (R C : ℕ) (goal : Pos) (c : ℤ) :
    Except String ((Pos → WithTop ℤ) × (Pos → WithTop ℤ)) :=
  if goal.1 < -(R : ℤ) ∨ goal.1 ≥ (R : ℤ) ∨ goal.2 < -(C : ℤ) ∨ goal.2 ≥ (C : ℤ) then
    .error "IndexError"
  else if c = 4 then
    .ok (let res := (wrunGo R C wmoves4 (wfuel R C)
          { f := upd (winit g R C) (npWrap R goal.1, npWrap C goal.2) ((0 : ℤ) : WithTop ℤ),
            q := [(npWrap R goal.1, npWrap C goal.2)] }).f
         (res, wvis res))
  else if c = 8 then
    .ok (let res := (wrunGo R C wmoves8 (wfuel R C)
          { f := upd (winit g R C) (npWrap R goal.1, npWrap C goal.2) ((0 : ℤ) : WithTop ℤ),
            q := [(npWrap R goal.1, npWrap C goal.2)] }).f
         (res, wvis res))
  else
    .error ("Unsupported connectivity: " ++ toString c ++ ". Use 4 or 8.")

/-- Observation helper: the wavefront distance map value at one cell. -/
def waveAt (g : Pos → ℤ) (R C : ℕ) (goal : Pos) (c : ℤ) (p : Pos) : WithTop ℤ :=
  match compute_wavefront g R C goal c with
  | .ok (res, _) => res p
  | .error _ => ((37 : ℤ) : WithTop ℤ)

/-! ## Wavefront correctness: hop-distance from the goal and loop invariants -/

/-- `ReachW … n p`: a path of `n` hops from the goal to `p` through in-bounds
Free cells — the paths along which the wavefront relaxation propagates. -/
inductive ReachW (g : Pos → ℤ) (R C : ℕ) (moves : List Pos) (goal : Pos) : ℕ → Pos → Prop
  | base : ReachW g R C moves goal 0 goal
  | step (n : ℕ) (t m : Pos) (h : ReachW g R C moves goal n t) (hm : m ∈ moves)
      (hb : inB R C (t + m)) (hf : g (t + m) = 0) : ReachW g R C moves goal (n + 1) (t + m)

/-- `n` is the minimum wavefront hop-distance from the goal to `p`. -/
def IsLeastW (g : Pos → ℤ) (R C : ℕ) (moves : List Pos) (goal : Pos) (p : Pos) (n : ℕ) : Prop :=
  ReachW g R C moves goal n p ∧ ∀ k, ReachW g R C moves goal k p → n ≤ k

theorem exists_least_w {g : Pos → ℤ} {R C : ℕ} {moves : List Pos} {goal p : Pos}
    (h : ∃ k, ReachW g R C moves goal k p) : ∃ n, IsLeastW g R C moves goal p n :=
  ⟨sInf {k | ReachW g R C moves goal k p}, Nat.sInf_mem h, fun k hk => Nat.sInf_le hk⟩

theorem reachW_inB {g : Pos → ℤ} {R C : ℕ} {moves : List Pos} {goal : Pos}
    (hgoalB : inB R C goal) {n : ℕ} {p : Pos}
    (h : ReachW g R C moves goal n p) : inB R C p := by
  cases h with
  | base => exact hgoalB
  | step _ _ _ _ _ hb _ => exact hb

theorem reachW_free {g : Pos → ℤ} {R C : ℕ} {moves : List Pos} {goal : Pos}
    (hgoalF : g goal = 0) {n : ℕ} {p : Pos}
    (h : ReachW g R C moves goal n p) : g p = 0 := by
  cases h with
  | base => exact hgoalF
  | step _ _ _ _ _ _ hf => exact hf

theorem wtop_add_one (a : ℤ) : (a : WithTop ℤ) + 1 = ((a + 1 : ℤ) : WithTop ℤ) := by
  rw [WithTop.coe_add, WithTop.coe_one]

/-- The global invariant of the wavefront relaxation loop. -/
structure WInv (g : Pos → ℤ) (R C : ℕ) (moves : List Pos) (goal : Pos) (s : WState) : Prop where
  winf : ∀ p, s.f p = ⊤ ↔ (inB R C p ∧ g p = 1)
  qmem : ∀ p ∈ s.q, inB R C p ∧ ∃ a : ℤ, s.f p = (a : WithTop ℤ) ∧ 0 ≤ a ∧ a < 10 ^ 9
  bound : ∀ p, inB R C p → g p = 0 → ∃ a : ℤ, s.f p = (a : WithTop ℤ) ∧ 0 ≤ a ∧ a ≤ 10 ^ 9
  pathval : ∀ p, inB R C p → g p = 0 → ∀ a : ℤ, s.f p = (a : WithTop ℤ) →
    a = 10 ^ 9 ∨ ∃ n : ℕ, a = (n : ℤ) ∧ ReachW g R C moves goal n p
  relaxq : ∀ u, ∀ m ∈ moves, inB R C u → inB R C (u + m) →
    ∀ a b : ℤ, s.f u = (a : WithTop ℤ) → s.f (u + m) = (b : WithTop ℤ) →
    a + 1 < b → u ∈ s.q
  goal0 : s.f goal = ((0 : ℤ) : WithTop ℤ)

/-- The invariant carried through the neighbour loop of one dequeued cell `t`
holding the finite value `a_t`. -/
structure WFInv (g : Pos → ℤ) (R C : ℕ) (moves : List Pos) (goal : Pos)
    (t : Pos) (at_ : ℤ) (todo : List Pos) (s : WState) : Prop where
  ft : s.f t = (at_ : WithTop ℤ)
  htpos : 0 ≤ at_ ∧ at_ < 10 ^ 9
  tinB : inB R C t
  winf : ∀ p, s.f p = ⊤ ↔ (inB R C p ∧ g p = 1)
  qmem : ∀ p ∈ s.q, inB R C p ∧ ∃ a : ℤ, s.f p = (a : WithTop ℤ) ∧ 0 ≤ a ∧ a < 10 ^ 9
  bound : ∀ p, inB R C p → g p = 0 → ∃ a : ℤ, s.f p = (a : WithTop ℤ) ∧ 0 ≤ a ∧ a ≤ 10 ^ 9
  pathval : ∀ p, inB R C p → g p = 0 → ∀ a : ℤ, s.f p = (a : WithTop ℤ) →
    a = 10 ^ 9 ∨ ∃ n : ℕ, a = (n : ℤ) ∧ ReachW g R C moves goal n p
  relaxq : ∀ u, u ≠ t → ∀ m ∈ moves, inB R C u → inB R C (u + m) →
    ∀ a b : ℤ, s.f u = (a : WithTop ℤ) → s.f (u + m) = (b : WithTop ℤ) →
    a + 1 < b → u ∈ s.q
  tproc : ∀ m ∈ moves, m ∉ todo → inB R C (t + m) →
    ∀ b : ℤ, s.f (t + m) = (b : WithTop ℤ) → b ≤ at_ + 1
  goal0 : s.f goal = ((0 : ℤ) : WithTop ℤ)

theorem is_valid_inB {f : Pos → WithTop ℤ} {R C : ℕ} {p : Pos}
    (h : is_valid_cell f R C p) : inB R C p := by
  obtain ⟨h1, h2, _⟩ := h
  simp only [inB]
  omega

theorem not_valid_top {f : Pos → WithTop ℤ} {R C : ℕ} {p : Pos}
    (hnv : ¬ is_valid_cell f R C p) (hb : inB R C p) : f p = ⊤ := by
  by_contra hft
  apply hnv
  have hb' : 0 ≤ p.1 ∧ p.1 < (R : ℤ) ∧ 0 ≤ p.2 ∧ p.2 < (C : ℤ) := hb
  exact ⟨by omega, by omega, hft⟩

theorem wstepCell_wfinv {g : Pos → ℤ} {R C : ℕ} {moves : List Pos} {goal : Pos}
    (hg : IsGrid g R C) (hmz : ∀ m ∈ moves, m ≠ ((0 : ℤ), (0 : ℤ)))
    {t : Pos} {at_ : ℤ} {m : Pos} {todo : List Pos} {s : WState}
    (hm : m ∈ moves) (hF : WFInv g R C moves goal t at_ (m :: todo) s) :
    WFInv g R C moves goal t at_ todo (wstepCell R C t m s) := by
  have hmem_cons : ∀ m' : Pos, m' ≠ m → m' ∉ todo → m' ∉ m :: todo := by
    intro m' h1 h2 hc
    rcases List.mem_cons.mp hc with hc1 | hc2
    · exact h1 hc1
    · exact h2 hc2
  unfold wstepCell
  by_cases hval : is_valid_cell s.f R C (t + m)
  · rw [if_neg (not_not_intro hval)]
    have hvin : inB R C (t + m) := is_valid_inB hval
    obtain ⟨b₀, hb₀⟩ := WithTop.ne_top_iff_exists.mp hval.2.2
    by_cases hrel : s.f (t + m) ≠ ⊤ ∧ s.f t + 1 < s.f (t + m)
    · rw [if_pos hrel]
      -- the relaxation branch
      have hvt : t + m ≠ t := pos_add_ne_self (hmz m hm)
      have hlt : at_ + 1 < b₀ := by
        have h2 := hrel.2
        rw [hF.ft, ← hb₀, wtop_add_one, WithTop.coe_lt_coe] at h2
        exact h2
      have hgv : g (t + m) = 0 := by
        rcases hg (t + m) hvin with h0 | h1
        · exact h0
        · exact absurd ((hF.winf (t + m)).mpr ⟨hvin, h1⟩) (by rw [← hb₀]; exact WithTop.coe_ne_top)
      have hb₀hi : b₀ ≤ 10 ^ 9 := by
        obtain ⟨a, ha, _, hahi⟩ := hF.bound (t + m) hvin hgv
        rw [← hb₀] at ha
        rw [WithTop.coe_inj.mp ha]
        exact hahi
      have hvg : t + m ≠ goal := by
        intro hc
        have := hF.goal0
        rw [← hc, ← hb₀] at this
        have hb00 : b₀ = 0 := WithTop.coe_inj.mp this
        have := hF.htpos.1
        omega
      have hnewv : upd s.f (t + m) (s.f t + 1) (t + m) = ((at_ + 1 : ℤ) : WithTop ℤ) := by
        rw [upd_same, hF.ft, wtop_add_one]
      have hkeep : ∀ x, x ≠ t + m → upd s.f (t + m) (s.f t + 1) x = s.f x := fun x hx =>
        upd_other _ _ _ _ hx
      refine ⟨?_, hF.htpos, hF.tinB, ?_, ?_, ?_, ?_, ?_, ?_, ?_⟩
      · -- ft
        show upd s.f (t + m) (s.f t + 1) t = (at_ : WithTop ℤ)
        rw [hkeep t (fun hc => hvt hc.symm), hF.ft]
      · -- winf
        intro p
        dsimp only
        by_cases hpv : p = t + m
        · subst hpv
          rw [hnewv]
          constructor
          · intro hc; exact absurd hc WithTop.coe_ne_top
          · rintro ⟨_, h1⟩; rw [h1] at hgv; omega
        · rw [hkeep p hpv]; exact hF.winf p
      · -- qmem
        intro p hp
        dsimp only at hp ⊢
        by_cases hpv : p = t + m
        · subst hpv
          refine ⟨hvin, at_ + 1, hnewv, ?_, ?_⟩
          · have := hF.htpos.1; omega
          · omega
        · rcases List.mem_append.mp hp with hpq | hpv'
          · obtain ⟨hbi, a, ha, halo, hahi⟩ := hF.qmem p hpq
            exact ⟨hbi, a, by rw [hkeep p hpv]; exact ha, halo, hahi⟩
          · rw [List.mem_singleton] at hpv'
            exact absurd hpv' hpv
      · -- bound
        intro p hbp hfp
        dsimp only
        by_cases hpv : p = t + m
        · subst hpv
          refine ⟨at_ + 1, hnewv, ?_, ?_⟩
          · have := hF.htpos.1; omega
          · omega
        · rw [hkeep p hpv]; exact hF.bound p hbp hfp
      · -- pathval
        intro p hbp hfp a ha
        dsimp only at ha ⊢
        by_cases hpv : p = t + m
        · subst hpv
          rw [hnewv] at ha
          have haeq : a = at_ + 1 := WithTop.coe_inj.mp ha.symm
          have hgt : g t = 0 := by
            rcases hg t hF.tinB with h0 | h1
            · exact h0
            · exact absurd ((hF.winf t).mpr ⟨hF.tinB, h1⟩)
                (by rw [hF.ft]; exact WithTop.coe_ne_top)
          rcases hF.pathval t hF.tinB hgt at_ hF.ft with h9 | ⟨n, hn, hr⟩
          · exact absurd h9 (by have := hF.htpos.2; omega)
          · refine Or.inr ⟨n + 1, by omega, ReachW.step n t m hr hm hvin hgv⟩
        · rw [hkeep p hpv] at ha
          exact hF.pathval p hbp hfp a ha
      · -- relaxq
        intro u hut m'' hm'' hbu hbv a b ha hb hviol
        dsimp only at ha hb ⊢
        by_cases huv : u = t + m
        · exact List.mem_append.mpr (Or.inr (by rw [huv]; exact List.mem_singleton_self _))
        · rw [hkeep u huv] at ha
          by_cases htv : u + m'' = t + m
          · rw [htv, hnewv] at hb
            have hbeq : b = at_ + 1 := WithTop.coe_inj.mp hb.symm
            have hviol₀ : a + 1 < b₀ := by omega
            exact List.mem_append.mpr (Or.inl
              (hF.relaxq u hut m'' hm'' hbu hbv a b₀ ha (by rw [htv, ← hb₀]) hviol₀))
          · rw [hkeep _ htv] at hb
            exact List.mem_append.mpr (Or.inl (hF.relaxq u hut m'' hm'' hbu hbv a b ha hb hviol))
      · -- tproc
        intro m' hm' hnt hbv b hb
        dsimp only at hb
        by_cases htv : t + m' = t + m
        · rw [htv, hnewv] at hb
          have : b = at_ + 1 := WithTop.coe_inj.mp hb.symm
          omega
        · have hmm : m' ≠ m := fun hc => htv (by rw [hc])
          rw [hkeep _ htv] at hb
          exact hF.tproc m' hm' (hmem_cons m' hmm hnt) hbv b hb
      · -- goal0
        show upd s.f (t + m) (s.f t + 1) goal = ((0 : ℤ) : WithTop ℤ)
        rw [hkeep goal (fun hc => hvg hc.symm), hF.goal0]
    · rw [if_neg hrel]
      refine { hF with tproc := ?_ }
      intro m' hm' hnt hbv b hb
      by_cases hmm : m' = m
      · subst hmm
        rw [← hb₀] at hb
        have hbeq : b = b₀ := WithTop.coe_inj.mp hb.symm
        have hnl : ¬ (s.f t + 1 < s.f (t + m')) := by
          intro hc
          exact hrel ⟨by rw [← hb₀]; exact WithTop.coe_ne_top, hc⟩
        rw [hF.ft, wtop_add_one, ← hb₀, WithTop.coe_lt_coe] at hnl
        omega
      · exact hF.tproc m' hm' (hmem_cons m' hmm hnt) hbv b hb
  · rw [if_pos hval]
    refine { hF with tproc := ?_ }
    intro m' hm' hnt hbv b hb
    by_cases hmm : m' = m
    · subst hmm
      have htop := not_valid_top hval hbv
      rw [htop] at hb
      exact absurd hb.symm WithTop.coe_ne_top
    · exact hF.tproc m' hm' (hmem_cons m' hmm hnt) hbv b hb

/-- Natural-number size of a wavefront cell value (⊤ counts as 0). -/
def wvalN (x : WithTop ℤ) : ℕ := (WithTop.untop' 0 x).toNat

/-- Decreasing measure for the wavefront loop. -/
def wphi (R C : ℕ) (s : WState) : ℕ :=
  s.q.length + 2 * ∑ p ∈ cells R C, wvalN (s.f p)

theorem sum_wvalN_upd {R C : ℕ} (f : Pos → WithTop ℤ) {v : Pos} (w : WithTop ℤ)
    (hv : v ∈ cells R C) :
    (∑ p ∈ cells R C, wvalN (upd f v w p)) + wvalN (f v) =
    (∑ p ∈ cells R C, wvalN (f p)) + wvalN w := by
  rw [← Finset.add_sum_erase _ (fun p => wvalN (upd f v w p)) hv,
      ← Finset.add_sum_erase _ (fun p => wvalN (f p)) hv]
  have he : ∑ p ∈ (cells R C).erase v, wvalN (upd f v w p) =
      ∑ p ∈ (cells R C).erase v, wvalN (f p) :=
    Finset.sum_congr rfl (fun x hx => by
      rw [upd_other _ _ _ _ (Finset.ne_of_mem_erase hx)])
  rw [he, upd_same]
  omega

theorem wstepCell_wphi {g : Pos → ℤ} {R C : ℕ} {moves : List Pos} {goal : Pos}
    {t : Pos} {at_ : ℤ} {m : Pos} {todo : List Pos} {s : WState}
    (hF : WFInv g R C moves goal t at_ (m :: todo) s) :
    wphi R C (wstepCell R C t m s) ≤ wphi R C s := by
  unfold wstepCell
  by_cases hval : is_valid_cell s.f R C (t + m)
  · rw [if_neg (not_not_intro hval)]
    by_cases hrel : s.f (t + m) ≠ ⊤ ∧ s.f t + 1 < s.f (t + m)
    · rw [if_pos hrel]
      obtain ⟨b₀, hb₀⟩ := WithTop.ne_top_iff_exists.mp hrel.1
      have hvin : inB R C (t + m) := is_valid_inB hval
      have hlt : at_ + 1 < b₀ := by
        have h2 := hrel.2
        rw [hF.ft, ← hb₀, wtop_add_one, WithTop.coe_lt_coe] at h2
        exact h2
      have hsum := sum_wvalN_upd s.f (s.f t + 1) (mem_cells.mpr hvin)
      have hwnew : wvalN (s.f t + 1) = (at_ + 1).toNat := by
        rw [hF.ft, wtop_add_one]
        unfold wvalN
        rw [WithTop.untop'_coe]
      have hwold : wvalN (s.f (t + m)) = b₀.toNat := by
        rw [← hb₀]
        unfold wvalN
        rw [WithTop.untop'_coe]
      have hdec : wvalN (s.f t + 1) < wvalN (s.f (t + m)) := by
        rw [hwnew, hwold]
        have h0 := hF.htpos.1
        omega
      unfold wphi
      dsimp only
      rw [List.length_append, List.length_singleton]
      omega
    · rw [if_neg hrel]
  · rw [if_pos hval]

theorem fold_wfinv {g : Pos → ℤ} {R C : ℕ} {moves : List Pos} {goal : Pos}
    (hg : IsGrid g R C) (hmz : ∀ m ∈ moves, m ≠ ((0 : ℤ), (0 : ℤ)))
    {t : Pos} {at_ : ℤ} :
    ∀ (todo : List Pos) (s : WState), (∀ m ∈ todo, m ∈ moves) →
      WFInv g R C moves goal t at_ todo s →
      WFInv g R C moves goal t at_ [] (todo.foldl (fun a m => wstepCell R C t m a) s) ∧
      wphi R C (todo.foldl (fun a m => wstepCell R C t m a) s) ≤ wphi R C s := by
  intro todo
  induction todo with
  | nil => intro s _ hF; exact ⟨hF, le_refl _⟩
  | cons m rest ih =>
    intro s hsub hF
    have hm : m ∈ moves := hsub m (List.mem_cons_self m rest)
    have h1 := wstepCell_wfinv hg hmz hm hF
    have h2 := wstepCell_wphi hF
    have h3 := ih (wstepCell R C t m s) (fun x hx => hsub x (List.mem_cons_of_mem m hx)) h1
    exact ⟨h3.1, le_trans h3.2 h2⟩

theorem pop_wfinv {g : Pos → ℤ} {R C : ℕ} {moves : List Pos} {goal : Pos}
    {s : WState} {t : Pos} {rest : List Pos}
    (hW : WInv g R C moves goal s) (hq : s.q = t :: rest) :
    ∃ at_ : ℤ, s.f t = (at_ : WithTop ℤ) ∧
      WFInv g R C moves goal t at_ moves { f := s.f, q := rest } := by
  have htq : t ∈ s.q := by rw [hq]; exact List.mem_cons_self t rest
  obtain ⟨htB, at_, hat, halo, hahi⟩ := hW.qmem t htq
  refine ⟨at_, hat, hat, ⟨halo, hahi⟩, htB, hW.winf, ?_, hW.bound, hW.pathval, ?_, ?_, hW.goal0⟩
  · -- qmem
    intro p hp
    exact hW.qmem p (by rw [hq]; exact List.mem_cons_of_mem t hp)
  · -- relaxq
    intro u hut m hm hbu hbv a b ha hb hviol
    have := hW.relaxq u m hm hbu hbv a b ha hb hviol
    rw [hq] at this
    rcases List.mem_cons.mp this with hc1 | hc2
    · exact absurd hc1 hut
    · exact hc2
  · -- tproc
    intro m hm hnm
    exact absurd hm hnm

theorem post_winv {g : Pos → ℤ} {R C : ℕ} {moves : List Pos} {goal : Pos}
    {s' : WState} {t : Pos} {at_ : ℤ}
    (hF : WFInv g R C moves goal t at_ [] s') : WInv g R C moves goal s' := by
  refine ⟨hF.winf, hF.qmem, hF.bound, hF.pathval, ?_, hF.goal0⟩
  intro u m hm hbu hbv a b ha hb hviol
  by_cases hut : u = t
  · subst hut
    have haeq : a = at_ := by
      rw [hF.ft] at ha
      exact WithTop.coe_inj.mp ha.symm
    have := hF.tproc m hm (List.not_mem_nil m) hbv b hb
    omega
  · exact hF.relaxq u hut m hm hbu hbv a b ha hb hviol

theorem wstep_nil {R C : ℕ} {moves : List Pos} {s : WState} (h : s.q = []) :
    wstep R C moves s = s := by
  unfold wstep
  rw [h]

theorem wstep_preserves {g : Pos → ℤ} {R C : ℕ} {moves : List Pos} {goal : Pos}
    (hg : IsGrid g R C) (hmz : ∀ m ∈ moves, m ≠ ((0 : ℤ), (0 : ℤ)))
    {s : WState} (hW : WInv g R C moves goal s) (hne : s.q ≠ []) :
    WInv g R C moves goal (wstep R C moves s) ∧
    wphi R C (wstep R C moves s) < wphi R C s := by
  obtain ⟨t, rest, hq⟩ : ∃ t rest, s.q = t :: rest := by
    cases hcase : s.q with
    | nil => exact absurd hcase hne
    | cons a l => exact ⟨a, l, rfl⟩
  have hstep : wstep R C moves s =
      moves.foldl (fun a m => wstepCell R C t m a) { f := s.f, q := rest } := by
    unfold wstep; rw [hq]
  rw [hstep]
  obtain ⟨at_, _, hpop⟩ := pop_wfinv hW hq
  have hfold := fold_wfinv hg hmz moves { f := s.f, q := rest } (fun m hm => hm) hpop
  refine ⟨post_winv hfold.1, ?_⟩
  have hlen : wphi R C { f := s.f, q := rest } + 1 = wphi R C s := by
    unfold wphi
    dsimp only
    rw [hq]
    simp only [List.length_cons]
    omega
  omega

theorem npWrap_of_inB {R C : ℕ} {goal : Pos} (h : inB R C goal) :
    ((npWrap R goal.1, npWrap C goal.2) : Pos) = goal := by
  have h' : 0 ≤ goal.1 ∧ goal.1 < (R : ℤ) ∧ 0 ≤ goal.2 ∧ goal.2 < (C : ℤ) := h
  obtain ⟨a, b⟩ := goal
  unfold npWrap
  dsimp only at h' ⊢
  rw [if_neg (by omega), if_neg (by omega)]

theorem winv_init {g : Pos → ℤ} {R C : ℕ} {moves : List Pos} {goal : Pos}
    (hg : IsGrid g R C) (hgoalB : inB R C goal) (hgoalF : g goal = 0) :
    WInv g R C moves goal
      { f := upd (winit g R C) goal ((0 : ℤ) : WithTop ℤ), q := [goal] } := by
  have hwinit_occ : ∀ p, inB R C p → g p = 1 → winit g R C p = ⊤ := by
    intro p hb h1
    unfold winit
    rw [if_pos hb, if_pos h1]
  have hwinit_free : ∀ p, inB R C p → g p = 0 →
      winit g R C p = ((10 ^ 9 : ℤ) : WithTop ℤ) := by
    intro p hb h0
    unfold winit
    rw [if_pos hb, if_neg (by omega), h0]
    norm_num
  have hfgoal : upd (winit g R C) goal ((0 : ℤ) : WithTop ℤ) goal = ((0 : ℤ) : WithTop ℤ) :=
    upd_same _ _ _
  refine ⟨?_, ?_, ?_, ?_, ?_, hfgoal⟩
  · -- winf
    intro p
    dsimp only
    by_cases hpg : p = goal
    · subst hpg
      rw [hfgoal]
      constructor
      · intro hc; exact absurd hc WithTop.coe_ne_top
      · rintro ⟨_, h1⟩; rw [h1] at hgoalF; omega
    · rw [upd_other _ _ _ _ hpg]
      constructor
      · intro hc
        by_cases hb : inB R C p
        · rcases hg p hb with h0 | h1
          · rw [hwinit_free p hb h0] at hc
            exact absurd hc WithTop.coe_ne_top
          · exact ⟨hb, h1⟩
        · unfold winit at hc
          rw [if_neg hb] at hc
          exact absurd hc WithTop.coe_ne_top
      · rintro ⟨hb, h1⟩
        exact hwinit_occ p hb h1
  · -- qmem
    intro p hp
    dsimp only at hp ⊢
    rw [List.mem_singleton] at hp
    subst hp
    exact ⟨hgoalB, 0, hfgoal, by omega, by norm_num⟩
  · -- bound
    intro p hb h0
    dsimp only
    by_cases hpg : p = goal
    · subst hpg
      exact ⟨0, hfgoal, by omega, by norm_num⟩
    · rw [upd_other _ _ _ _ hpg, hwinit_free p hb h0]
      exact ⟨10 ^ 9, rfl, by norm_num, le_refl _⟩
  · -- pathval
    intro p hb h0 a ha
    dsimp only at ha
    by_cases hpg : p = goal
    · subst hpg
      rw [hfgoal] at ha
      have ha0 : a = 0 := WithTop.coe_inj.mp ha.symm
      exact Or.inr ⟨0, by omega, ReachW.base⟩
    · rw [upd_other _ _ _ _ hpg, hwinit_free p hb h0] at ha
      exact Or.inl (WithTop.coe_inj.mp ha.symm)
  · -- relaxq
    intro u m hm hbu hbv a b ha hb hviol
    dsimp only at ha hb ⊢
    by_cases hug : u = goal
    · rw [hug]; exact List.mem_singleton_self goal
    · exfalso
      rw [upd_other _ _ _ _ hug] at ha
      rcases hg u hbu with h0 | h1
      · rw [hwinit_free u hbu h0] at ha
        have ha9 : a = 10 ^ 9 := WithTop.coe_inj.mp ha.symm
        have hble : b ≤ 10 ^ 9 := by
          by_cases hvg : u + m = goal
          · rw [hvg, hfgoal] at hb
            have : b = 0 := WithTop.coe_inj.mp hb.symm
            omega
          · rw [upd_other _ _ _ _ hvg] at hb
            rcases hg (u + m) hbv with hv0 | hv1
            · rw [hwinit_free _ hbv hv0] at hb
              have : b = 10 ^ 9 := WithTop.coe_inj.mp hb.symm
              omega
            · rw [hwinit_occ _ hbv hv1] at hb
              exact absurd hb.symm WithTop.coe_ne_top
        omega
      · rw [hwinit_occ u hbu h1] at ha
        exact absurd ha.symm WithTop.coe_ne_top

theorem wphi_init {g : Pos → ℤ} {R C : ℕ} {goal : Pos}
    (hg : IsGrid g R C) (hgoalF : g goal = 0) :
    wphi R C { f := upd (winit g R C) goal ((0 : ℤ) : WithTop ℤ), q := [goal] } ≤ wfuel R C := by
  unfold wphi wfuel
  dsimp only
  rw [List.length_singleton]
  have hsum : ∑ p ∈ cells R C, wvalN (upd (winit g R C) goal ((0 : ℤ) : WithTop ℤ) p) ≤
      (cells R C).card • 10 ^ 9 := by
    apply Finset.sum_le_card_nsmul
    intro p _
    by_cases hpg : p = goal
    · subst hpg
      rw [upd_same]
      unfold wvalN
      rw [WithTop.untop'_coe]
      norm_num
    · rw [upd_other _ _ _ _ hpg]
      unfold winit wvalN
      by_cases hb : inB R C p
      · rw [if_pos hb]
        by_cases h1 : g p = 1
        · rw [if_pos h1, WithTop.untop'_top]
          norm_num
        · rw [if_neg h1, WithTop.untop'_coe]
          have h0 : g p = 0 := by
            rcases hg p hb with ha | hb' 
            · exact ha
            · exact absurd hb' h1
          rw [h0]
          norm_num
      · rw [if_neg hb, WithTop.untop'_coe]
        norm_num
  rw [card_cells, smul_eq_mul] at hsum
  omega

theorem wavefront_run {g : Pos → ℤ} {R C : ℕ} {moves : List Pos} {goal : Pos}
    (hg : IsGrid g R C) (hmz : ∀ m ∈ moves, m ≠ ((0 : ℤ), (0 : ℤ)))
    (hgoalB : inB R C goal) (hgoalF : g goal = 0) :
    WInv g R C moves goal (wrunGo R C moves (wfuel R C)
      { f := upd (winit g R C) goal ((0 : ℤ) : WithTop ℤ), q := [goal] }) ∧
    (wrunGo R C moves (wfuel R C)
      { f := upd (winit g R C) goal ((0 : ℤ) : WithTop ℤ), q := [goal] }).q = [] := by
  rw [wrunGo_eq_runN]
  exact runN_completes (wstep R C moves) (WInv g R C moves goal) (fun s => s.q = []) (wphi R C)
    (fun s hW hnd => wstep_preserves hg hmz hW hnd)
    (fun _ hd => wstep_nil hd)
    (fun s _ h0 => by
      unfold wphi at h0
      exact List.length_eq_zero.mp (by omega))
    (wfuel R C) _ (winv_init hg hgoalB hgoalF) (wphi_init hg hgoalF)

theorem wave_no_relax {g : Pos → ℤ} {R C : ℕ} {moves : List Pos} {goal : Pos} {s : WState}
    (hW : WInv g R C moves goal s) (hq : s.q = []) :
    ∀ u m, m ∈ moves → inB R C u → inB R C (u + m) →
      ∀ a b : ℤ, s.f u = (a : WithTop ℤ) → s.f (u + m) = (b : WithTop ℤ) → b ≤ a + 1 := by
  intro u m hm hbu hbv a b ha hb
  by_contra hc
  push_neg at hc
  have := hW.relaxq u m hm hbu hbv a b ha hb hc
  rw [hq] at this
  exact List.not_mem_nil u this

theorem reachW_upper {g : Pos → ℤ} {R C : ℕ} {moves : List Pos} {goal : Pos} {s : WState}
    (hW : WInv g R C moves goal s) (hq : s.q = []) (hgoalB : inB R C goal) :
    ∀ n p, ReachW g R C moves goal n p →
      ∃ a : ℤ, s.f p = (a : WithTop ℤ) ∧ a ≤ (n : ℤ) := by
  intro n p h
  induction h with
  | base => exact ⟨0, hW.goal0, by omega⟩
  | step k t m ht hm hb hf ih =>
    obtain ⟨a, ha, hle⟩ := ih
    obtain ⟨b, hbv, _, _⟩ := hW.bound (t + m) hb hf
    have hnr := wave_no_relax hW hq t m hm (reachW_inB hgoalB ht) hb a b ha hbv
    exact ⟨b, hbv, by push_cast; omega⟩

/-- A single hop of the wavefront propagation, as a relation for path lists. -/
def wstepRel (g : Pos → ℤ) (R C : ℕ) (moves : List Pos) (a b : Pos) : Prop :=
  ∃ m ∈ moves, b = a + m ∧ inB R C b ∧ g b = 0


theorem chain_reachW {g : Pos → ℤ} {R C : ℕ} {moves : List Pos} {goal : Pos} :
    ∀ (n : ℕ) (p : Pos) (L : List Pos), L.length = n + 1 → L.head? = some goal →
      L.getLast? = some p → List.Chain' (wstepRel g R C moves) L →
      ReachW g R C moves goal n p := by
  intro n
  induction n with
  | zero =>
    intro p L hlen hhead hlast _
    obtain ⟨x, rfl⟩ := List.length_eq_one.mp hlen
    have h1 : x = goal := Option.some.inj hhead
    have h2 : x = p := Option.some.inj hlast
    rw [← h2, h1]
    exact ReachW.base
  | succ k ih =>
    intro p L hlen hhead hlast hchain
    have hLne : L ≠ [] := by
      intro hc
      rw [hc] at hlen
      simp at hlen
    obtain ⟨L₀, x, rfl⟩ : ∃ L₀ x, L = L₀ ++ [x] := by
      refine ⟨L.dropLast, L.getLast hLne, ?_⟩
      rw [List.dropLast_append_getLast hLne]
    have hL₀ne : L₀ ≠ [] := by
      intro hc
      rw [hc] at hlen
      simp at hlen
    have hxp : p = x := by
      rw [List.getLast?_append] at hlast
      exact (Option.some.inj hlast).symm
    subst hxp
    have hlen₀ : L₀.length = k + 1 := by
      rw [List.length_append, List.length_singleton] at hlen
      omega
    have hhead₀ : L₀.head? = some goal := by
      rw [List.head?_append] at hhead
      cases hh : L₀.head? with
      | none => exact absurd (List.head?_eq_none_iff.mp hh) hL₀ne
      | some v =>
        rw [hh] at hhead
        exact congrArg some (Option.some.inj hhead)
    obtain ⟨q, hq⟩ : ∃ q, L₀.getLast? = some q := by
      cases hh : L₀.getLast? with
      | none => exact absurd (List.getLast?_eq_none_iff.mp hh) hL₀ne
      | some v => exact ⟨v, rfl⟩
    rw [List.chain'_append] at hchain
    obtain ⟨hchain₀, _, hlink⟩ := hchain
    have hrel : wstepRel g R C moves q p := by
      apply hlink q (by rw [hq]; rfl) p
      rfl
    obtain ⟨m, hm, hpq, hbp, hfp⟩ := hrel
    have hr₀ : ReachW g R C moves goal k q := ih q L₀ hlen₀ hhead₀ hq hchain₀
    rw [hpq]
    exact ReachW.step k q m hr₀ hm (hpq ▸ hbp) (hpq ▸ hfp)

theorem reachW_chain {g : Pos → ℤ} {R C : ℕ} {moves : List Pos} {goal : Pos}
    {n : ℕ} {p : Pos} (h : ReachW g R C moves goal n p) :
    ∃ L : List Pos, L.length = n + 1 ∧ L.head? = some goal ∧
      L.getLast? = some p ∧ List.Chain' (wstepRel g R C moves) L := by
  induction h with
  | base => exact ⟨[goal], rfl, rfl, rfl, List.chain'_singleton goal⟩
  | step k t m ht hm hb hf ih =>
    obtain ⟨L, hlen, hhead, hlast, hchain⟩ := ih
    have hLne : L ≠ [] := by
      intro hc
      rw [hc] at hlen
      simp at hlen
    refine ⟨L ++ [t + m], ?_, ?_, ?_, ?_⟩
    · rw [List.length_append, List.length_singleton, hlen]
    · rw [List.head?_append, hhead]
      rfl
    · rw [List.getLast?_append]
      rfl
    · rw [List.chain'_append]
      refine ⟨hchain, List.chain'_singleton _, ?_⟩
      intro x hx y hy
      rw [hlast, Option.mem_some_iff] at hx
      have hy' : y = t + m := by
        simp only [List.head?_cons, Option.mem_some_iff] at hy
        exact hy.symm
      subst hx
      rw [hy']
      exact ⟨m, hm, rfl, hb, hf⟩

theorem sublist_pair_split {α : Type} {x : α} :
    ∀ {l : List α}, [x, x].Sublist l → ∃ l₁ l₂ l₃, l = l₁ ++ x :: l₂ ++ x :: l₃ := by
  intro l h
  induction l with
  | nil => cases h
  | cons a l ih =>
    cases h with
    | cons _ h' =>
      obtain ⟨l₁, l₂, l₃, rfl⟩ := ih h'
      exact ⟨a :: l₁, l₂, l₃, rfl⟩
    | cons₂ _ h' =>
      have hx : x ∈ l := List.singleton_sublist.mp h'
      obtain ⟨l₂, l₃, rfl⟩ := List.append_of_mem hx
      exact ⟨[], l₂, l₃, rfl⟩

theorem nodup_length_le {α : Type} [DecidableEq α] {l : List α} {s : Finset α}
    (hn : l.Nodup) (h : ∀ x ∈ l, x ∈ s) : l.length ≤ s.card := by
  have hsub : l.toFinset ⊆ s := fun x hx => h x (List.mem_toFinset.mp hx)
  calc l.length = l.toFinset.card := (List.toFinset_card_of_nodup hn).symm
    _ ≤ s.card := Finset.card_le_card hsub

theorem chain_tail_inB {g : Pos → ℤ} {R C : ℕ} {moves : List Pos} :
    ∀ (L : List Pos), List.Chain' (wstepRel g R C moves) L → ∀ x ∈ L.tail, inB R C x := by
  intro L
  induction L with
  | nil => intro _ x hx; cases hx
  | cons a l ih =>
    intro hchain x hx
    cases l with
    | nil => cases hx
    | cons b l' =>
      rw [List.chain'_cons] at hchain
      rcases List.mem_cons.mp hx with hxb | hxl'
      · obtain ⟨_, _, _, hb, _⟩ := hchain.1
        rw [hxb]
        exact hb
      · exact ih hchain.2 x hxl'

theorem chain_mem_inB {g : Pos → ℤ} {R C : ℕ} {moves : List Pos} {goal : Pos}
    (hgoalB : inB R C goal) {L : List Pos}
    (hchain : List.Chain' (wstepRel g R C moves) L) (hhead : L.head? = some goal) :
    ∀ x ∈ L, inB R C x := by
  intro x hx
  cases L with
  | nil => cases hx
  | cons a l =>
    have ha : a = goal := Option.some.inj hhead
    rcases List.mem_cons.mp hx with hxa | hxl
    · rw [hxa, ha]; exact hgoalB
    · exact chain_tail_inB (a :: l) hchain x hxl

/-- Any wavefront path can be shortened below the number of grid cells. -/
theorem reachW_short {g : Pos → ℤ} {R C : ℕ} {moves : List Pos} {goal : Pos}
    (hgoalB : inB R C goal) :
    ∀ (n : ℕ) (p : Pos), ReachW g R C moves goal n p →
      ∃ k, k ≤ n ∧ k < R * C ∧ ReachW g R C moves goal k p := by
  intro n
  induction n using Nat.strong_induction_on with
  | _ n ih =>
    intro p hr
    by_cases hlt : n < R * C
    · exact ⟨n, le_refl n, hlt, hr⟩
    · obtain ⟨L, hlen, hhead, hlast, hchain⟩ := reachW_chain hr
      have hmem : ∀ x ∈ L, x ∈ cells R C := fun x hx =>
        mem_cells.mpr (chain_mem_inB hgoalB hchain hhead x hx)
      have hnodup : ¬ L.Nodup := by
        intro hnd
        have hle := nodup_length_le hnd hmem
        rw [card_cells, hlen] at hle
        omega
      obtain ⟨x, hdup⟩ := List.exists_duplicate_iff_not_nodup.mpr hnodup
      obtain ⟨L₁, L₂, L₃, hLeq⟩ := sublist_pair_split (List.duplicate_iff_sublist.mp hdup)
      -- the spliced, strictly shorter path: drop the loop between the
      -- two occurrences of the duplicated cell
      have hchain' : List.Chain' (wstepRel g R C moves) (L₁ ++ x :: L₃) := by
        rw [hLeq, List.chain'_append] at hchain
        obtain ⟨hc₁, hc₂, _⟩ := hchain
        rw [List.chain'_append] at hc₁
        obtain ⟨hcL₁, _, hlink₁⟩ := hc₁
        rw [List.chain'_append]
        refine ⟨hcL₁, hc₂, ?_⟩
        intro u hu y hy
        apply hlink₁ u hu y
        simp only [List.head?_cons] at hy ⊢
        exact hy
      have hhead' : (L₁ ++ x :: L₃).head? = some goal := by
        rw [hLeq] at hhead
        rw [List.head?_append, List.head?_append] at hhead
        rw [List.head?_append]
        cases hh : L₁.head? with
        | none => rw [hh] at hhead; exact hhead
        | some v => rw [hh] at hhead; exact hhead
      have hlast' : (L₁ ++ x :: L₃).getLast? = some p := by
        rw [hLeq, List.getLast?_append] at hlast
        rw [List.getLast?_append]
        cases hh : (x :: L₃).getLast? with
        | none =>
          exact absurd (List.getLast?_eq_none_iff.mp hh) (List.cons_ne_nil x L₃)
        | some v =>
          rw [hh] at hlast
          exact hlast
      have hlensum : n + 1 = L₁.length + L₂.length + L₃.length + 2 := by
        rw [hLeq] at hlen
        rw [List.length_append, List.length_append, List.length_cons, List.length_cons] at hlen
        omega
      have hsh : ReachW g R C moves goal (L₁.length + L₃.length) p := by
        apply chain_reachW (L₁.length + L₃.length) p (L₁ ++ x :: L₃) _ hhead' hlast' hchain'
        rw [List.length_append, List.length_cons]
        omega
      obtain ⟨k, hk1, hk2, hk3⟩ := ih (L₁.length + L₃.length) (by omega) p hsh
      exact ⟨k, by omega, hk2, hk3⟩

theorem wmoves_nonzero {c : ℤ} (hc : c = 4 ∨ c = 8) :
    ∀ m ∈ wmoves c, m ≠ ((0 : ℤ), (0 : ℤ)) := by
  rcases hc with rfl | rfl <;> decide

theorem wmoves_neg {c : ℤ} (hc : c = 4 ∨ c = 8) :
    ∀ m ∈ wmoves c, ((-m.1, -m.2) : Pos) ∈ wmoves c := by
  rcases hc with rfl | rfl <;> decide

/-- Full functional specification of the wavefront run on the final field. -/
theorem wavefront_final_spec {g : Pos → ℤ} {R C : ℕ} {moves : List Pos} {goal : Pos}
    (hg : IsGrid g R C) (hmz : ∀ m ∈ moves, m ≠ ((0 : ℤ), (0 : ℤ)))
    (hgoalB : inB R C goal) (hgoalF : g goal = 0) (hsize : R * C < 10 ^ 9) :
    (∀ p, (wrunGo R C moves (wfuel R C)
        { f := upd (winit g R C) goal ((0 : ℤ) : WithTop ℤ), q := [goal] }).f p = ⊤ ↔
      (inB R C p ∧ g p = 1)) ∧
    (∀ p, inB R C p → g p = 0 →
      ((∃ n : ℕ, IsLeastW g R C moves goal p n ∧
          (wrunGo R C moves (wfuel R C)
            { f := upd (winit g R C) goal ((0 : ℤ) : WithTop ℤ), q := [goal] }).f p =
            ((n : ℤ) : WithTop ℤ)) ∨
       ((∀ k, ¬ ReachW g R C moves goal k p) ∧
          (wrunGo R C moves (wfuel R C)
            { f := upd (winit g R C) goal ((0 : ℤ) : WithTop ℤ), q := [goal] }).f p =
            ((10 ^ 9 : ℤ) : WithTop ℤ)))) := by
  obtain ⟨hW, hq⟩ := wavefront_run hg hmz hgoalB hgoalF
  refine ⟨hW.winf, ?_⟩
  intro p hbp hfp
  by_cases hreach : ∃ k, ReachW g R C moves goal k p
  · left
    obtain ⟨n, hn⟩ := exists_least_w hreach
    obtain ⟨k, hk⟩ := hreach
    obtain ⟨k', hk'n, hk'size, hk'r⟩ := reachW_short hgoalB k p hk
    have hnsize : n < R * C := lt_of_le_of_lt (hn.2 k' hk'r) hk'size
    obtain ⟨a, ha, hale⟩ := reachW_upper hW hq hgoalB n p hn.1
    rcases hW.pathval p hbp hfp a ha with h9 | ⟨m', hm', hr'⟩
    · exfalso
      have : (n : ℤ) < 10 ^ 9 := by exact_mod_cast lt_of_lt_of_le (by exact_mod_cast hnsize) (by exact_mod_cast le_of_lt (by exact_mod_cast hsize))
      omega
    · have hnm : n ≤ m' := hn.2 m' hr'
      have haeq : a = (n : ℤ) := by omega
      exact ⟨n, hn, by rw [← haeq]; exact ha⟩
  · right
    push_neg at hreach
    obtain ⟨a, ha, _, _⟩ := hW.bound p hbp hfp
    rcases hW.pathval p hbp hfp a ha with h9 | ⟨m', _, hr'⟩
    · exact ⟨hreach, by rw [← h9]; exact ha⟩
    · exact absurd hr' (hreach m')

theorem compute_wavefront_ok {g : Pos → ℤ} {R C : ℕ} {goal : Pos} {c : ℤ}
    (hgB : inB R C goal) (hc : c = 4 ∨ c = 8) :
    compute_wavefront g R C goal c =
      .ok ((wrunGo R C (wmoves c) (wfuel R C)
              { f := upd (winit g R C) goal ((0 : ℤ) : WithTop ℤ), q := [goal] }).f,
           wvis (wrunGo R C (wmoves c) (wfuel R C)
              { f := upd (winit g R C) goal ((0 : ℤ) : WithTop ℤ), q := [goal] }).f) := by
  have hgB' : 0 ≤ goal.1 ∧ goal.1 < (R : ℤ) ∧ 0 ≤ goal.2 ∧ goal.2 < (C : ℤ) := hgB
  have hidx : ¬ (goal.1 < -(R : ℤ) ∨ goal.1 ≥ (R : ℤ) ∨ goal.2 < -(C : ℤ) ∨ goal.2 ≥ (C : ℤ)) := by
    omega
  unfold compute_wavefront
  rw [if_neg hidx]
  rcases hc with rfl | rfl
  · rw [if_pos rfl, npWrap_of_inB hgB]
    rfl
  · rw [if_neg (by omega), if_pos rfl, npWrap_of_inB hgB]
    rfl

/-- C4 (amended): for a 0/1 grid with fewer than 10^9 cells, an in-bounds
Free goal and connectivity 4 or 8, the wavefront distance map is ⊤ exactly
at Occupied cells; Free cells reachable from the goal carry their minimum
hop-count, and unreachable Free cells keep the finite 10^9 sentinel. -/
theorem C4_wavefront_field {g : Pos → ℤ} {R C : ℕ} {goal : Pos} {c : ℤ}
    (hg : IsGrid g R C) (hgB : inB R C goal) (hgF : g goal = 0)
    (hc : c = 4 ∨ c = 8) (hsize : R * C < 10 ^ 9) :
    ∃ res vis, compute_wavefront g R C goal c = .ok (res, vis) ∧
      (∀ p, res p = ⊤ ↔ (inB R C p ∧ g p = 1)) ∧
      (∀ p, inB R C p → g p = 0 →
        ((∃ n : ℕ, IsLeastW g R C (wmoves c) goal p n ∧ res p = ((n : ℤ) : WithTop ℤ)) ∨
         ((∀ k, ¬ ReachW g R C (wmoves c) goal k p) ∧
            res p = ((10 ^ 9 : ℤ) : WithTop ℤ)))) := by
  obtain ⟨h1, h2⟩ := wavefront_final_spec hg (wmoves_nonzero hc) hgB hgF hsize
  exact ⟨_, _, compute_wavefront_ok hgB hc, h1, h2⟩

/-- The all-Occupied 1×1 grid used by the C4 counterexample. -/
def gOcc : Pos → ℤ := fun _ => 1

/-- C4 counterexample: with an Occupied goal cell, the goal write overwrites
the infinity marker, so an Occupied cell carries the finite value 0 instead
of the unreachable sentinel. -/
theorem C4_wavefront_counterexample :
    gOcc (0, 0) = 1 ∧ waveAt gOcc 1 1 (0, 0) 4 (0, 0) = ((0 : ℤ) : WithTop ℤ) ∧
    waveAt gOcc 1 1 (0, 0) 4 (0, 0) ≠ ⊤ := by
  refine ⟨rfl, by decide, by decide⟩

theorem C4_wavefront_field_witness :
    (IsGrid g33 3 3 ∧ inB 3 3 ((0 : ℤ), (0 : ℤ)) ∧ g33 (0, 0) = 0 ∧
     ((4 : ℤ) = 4 ∨ (4 : ℤ) = 8) ∧ 3 * 3 < 10 ^ 9) ∧
    (∃ res vis, compute_wavefront g33 3 3 (0, 0) 4 = .ok (res, vis) ∧
      (∀ p, res p = ⊤ ↔ (inB 3 3 p ∧ g33 p = 1)) ∧
      (∀ p, inB 3 3 p → g33 p = 0 →
        ((∃ n : ℕ, IsLeastW g33 3 3 (wmoves 4) (0, 0) p n ∧ res p = ((n : ℤ) : WithTop ℤ)) ∨
         ((∀ k, ¬ ReachW g33 3 3 (wmoves 4) (0, 0) k p) ∧
            res p = ((10 ^ 9 : ℤ) : WithTop ℤ))))) := by
  have hg : IsGrid g33 3 3 := by
    intro p _
    by_cases h : p = (1, 1)
    · right
      show (if p = ((1 : ℤ), (1 : ℤ)) then (1 : ℤ) else 0) = 1
      rw [if_pos h]
    · left
      show (if p = ((1 : ℤ), (1 : ℤ)) then (1 : ℤ) else 0) = 0
      rw [if_neg h]
  have hgF : g33 (0, 0) = 0 := by decide
  exact ⟨⟨hg, by decide, hgF, Or.inl rfl, by norm_num⟩,
    C4_wavefront_field hg (by decide) hgF (Or.inl rfl) (by norm_num)⟩

/-- C7 (confirmed): on any 0/1 grid with an in-bounds Free goal and
connectivity 4 or 8, the wavefront distances of two adjacent Free cells
differ by at most 1. -/
theorem C7_wavefront_lipschitz {g : Pos → ℤ} {R C : ℕ} {goal : Pos} {c : ℤ} {p q : Pos}
    (hg : IsGrid g R C) (hgB : inB R C goal) (hgF : g goal = 0) (hc : c = 4 ∨ c = 8)
    (hp : inB R C p) (hq : inB R C q) (hfp : g p = 0) (hfq : g q = 0)
    (hadj : ∃ m ∈ wmoves c, q = p + m) :
    ∃ res vis, ∃ a b : ℤ, compute_wavefront g R C goal c = .ok (res, vis) ∧
      res p = ((a : ℤ) : WithTop ℤ) ∧ res q = ((b : ℤ) : WithTop ℤ) ∧ (a - b).natAbs ≤ 1 := by
  obtain ⟨hW, hqe⟩ := wavefront_run hg (wmoves_nonzero hc) hgB hgF
  obtain ⟨a, ha, _, _⟩ := hW.bound p hp hfp
  obtain ⟨b, hb, _, _⟩ := hW.bound q hq hfq
  obtain ⟨m, hm, hqp⟩ := hadj
  have h1 : b ≤ a + 1 := by
    refine wave_no_relax hW hqe p m hm hp ?_ a b ha ?_
    · rw [← hqp]; exact hq
    · rw [← hqp]; exact hb
  have hrev : p = q + ((-m.1, -m.2) : Pos) := by
    rw [hqp]
    obtain ⟨p1, p2⟩ := p
    obtain ⟨m1, m2⟩ := m
    rw [Prod.mk_add_mk, Prod.mk_add_mk]
    simp only [Prod.mk.injEq]
    constructor <;> ring
  have h2 : a ≤ b + 1 := by
    refine wave_no_relax hW hqe q ((-m.1, -m.2) : Pos) (wmoves_neg hc m hm) hq ?_ b a hb ?_
    · rw [← hrev]; exact hp
    · rw [← hrev]; exact ha
  refine ⟨_, _, a, b, compute_wavefront_ok hgB hc, ha, hb, by omega⟩

theorem C7_wavefront_lipschitz_witness :
    (IsGrid gfree 2 2 ∧ inB 2 2 ((0 : ℤ), (0 : ℤ)) ∧ gfree (0, 0) = 0 ∧
     ((4 : ℤ) = 4 ∨ (4 : ℤ) = 8) ∧ inB 2 2 ((0 : ℤ), (1 : ℤ)) ∧ inB 2 2 ((1 : ℤ), (1 : ℤ)) ∧
     gfree (0, 1) = 0 ∧ gfree (1, 1) = 0 ∧
     (∃ m ∈ wmoves 4, ((1 : ℤ), (1 : ℤ)) = ((0 : ℤ), (1 : ℤ)) + m)) ∧
    (∃ res vis, ∃ a b : ℤ, compute_wavefront gfree 2 2 (0, 0) 4 = .ok (res, vis) ∧
      res (0, 1) = ((a : ℤ) : WithTop ℤ) ∧ res (1, 1) = ((b : ℤ) : WithTop ℤ) ∧
      (a - b).natAbs ≤ 1) := by
  have hg : IsGrid gfree 2 2 := fun p _ => Or.inl rfl
  have hadj : ∃ m ∈ wmoves 4, ((1 : ℤ), (1 : ℤ)) = ((0 : ℤ), (1 : ℤ)) + m := by decide
  exact ⟨⟨hg, by decide, rfl, Or.inl rfl, by decide, by decide, rfl, rfl, hadj⟩,
    C7_wavefront_lipschitz hg (by decide) rfl (Or.inl rfl) (by decide) (by decide) rfl rfl hadj⟩

/-! ## Greedy descent on a wavefront map (src/greedy_descent.py) -/

/-- Greedy-descent move pattern for 4-connectivity, in source order. -/
def hmoves4 : List Pos := [(1,0),(0,1),(-1,0),(0,-1)]

/-- Greedy-descent move pattern for 8-connectivity, in source order. -/
def hmoves8 : List Pos := [(1,0),(1,1),(-1,1),(-1,-1),(0,1),(0,-1),(-1,0),(1,-1)]

/-- The greedy-descent move pattern selected by a valid connectivity value. -/
def hmoves (c : ℤ) : List Pos :=
  if c = 4 then hmoves4 else if c = 8 then hmoves8 else []

/-- numpy read of a WithTop-valued array: negative indices wrap once,
indices outside [-n, n) raise IndexError. -/
def numpyGetW (f : Pos → WithTop ℤ) (R C : ℕ) (i j : ℤ) : Except String (WithTop ℤ) :=
  if -(R : ℤ) ≤ i ∧ i < (R : ℤ) ∧ -(C : ℤ) ≤ j ∧ j < (C : ℤ) then
    .ok (f (if i < 0 then i + R else i, if j < 0 then j + C else j))
  else .error "IndexError"

/-- One neighbour consideration of the greedy-descent inner loop: an
in-bounds neighbour strictly below the running best becomes the new best. -/
def gstep (w : Pos → WithTop ℤ) (R C : ℕ) (cur : Pos)
    (acc : WithTop ℤ × Pos) (m : Pos) : WithTop ℤ × Pos :=
  if 0 ≤ (cur + m).1 ∧ (cur + m).1 < (R : ℤ) ∧ 0 ≤ (cur + m).2 ∧ (cur + m).2 < (C : ℤ) then
    if w (cur + m) < acc.1 then (w (cur + m), cur + m) else acc
  else acc

/-- The inner neighbour loop of greedy descent (first-scanned wins ties). -/
def greedyScan (w : Pos → WithTop ℤ) (R C : ℕ) (cur : Pos) (moves : List Pos)
    (bv : WithTop ℤ) : WithTop ℤ × Pos :=
  moves.foldl (gstep w R C cur) (bv, cur)

/-- The greedy-descent while-loop (fuel-indexed; the fuel bound `R*C+1` is
proven sufficient, so the "fuel exhausted" branch is unreachable for
in-bounds starts). -/
def greedyAux (w : Pos → WithTop ℤ) (R C : ℕ) (goal : Pos) (moves : List Pos) :
    ℕ → Pos → List ℤ → List ℤ → Except String (List ℤ × List ℤ)
  | 0, _, _, _ => .error "fuel exhausted"
  | fuel + 1, cur, rs, cs =>
    if cur.1 ≠ goal.1 ∨ cur.2 ≠ goal.2 then
      (numpyGetW w R C cur.1 cur.2).bind (fun bv =>
        if (greedyScan w R C cur moves bv).2 = cur then .ok (rs, cs)
        else
          greedyAux w R C goal moves fuel (greedyScan w R C cur moves bv).2
            (rs ++ [(greedyScan w R C cur moves bv).2.1])
            (cs ++ [(greedyScan w R C cur moves bv).2.2]))
    else .ok (rs, cs)

/-- `greedy_descent_path` from src/greedy_descent.py. -/
def greedy_descent_path (w : Pos → WithTop ℤ) (R C : ℕ) (start goal : Pos) (c : ℤ) :
    Except String (List ℤ × List ℤ) :=
  if c = 4 then greedyAux w R C goal hmoves4 (R * C + 1) start [start.1] [start.2]
  else if c = 8 then greedyAux w R C goal hmoves8 (R * C + 1) start [start.1] [start.2]
  else .error ("Unsupported connectivity: " ++ toString c ++ ". Use 4 or 8.")

theorem numpyGetW_inB {f : Pos → WithTop ℤ} {R C : ℕ} {p : Pos} (h : inB R C p) :
    numpyGetW f R C p.1 p.2 = .ok (f p) := by
  have h' : 0 ≤ p.1 ∧ p.1 < (R : ℤ) ∧ 0 ≤ p.2 ∧ p.2 < (C : ℤ) := h
  unfold numpyGetW
  rw [if_pos (by omega)]
  rw [if_neg (by omega), if_neg (by omega)]

theorem except_bind_ok {α β : Type} (a : α) (f : α → Except String β) :
    (Except.ok a : Except String α).bind f = f a := rfl

theorem greedyAux_succ (w : Pos → WithTop ℤ) (R C : ℕ) (goal : Pos) (moves : List Pos)
    (fuel : ℕ) (cur : Pos) (rs cs : List ℤ) :
    greedyAux w R C goal moves (fuel + 1) cur rs cs =
      if cur.1 ≠ goal.1 ∨ cur.2 ≠ goal.2 then
        (numpyGetW w R C cur.1 cur.2).bind (fun bv =>
          if (greedyScan w R C cur moves bv).2 = cur then .ok (rs, cs)
          else
            greedyAux w R C goal moves fuel (greedyScan w R C cur moves bv).2
              (rs ++ [(greedyScan w R C cur moves bv).2.1])
              (cs ++ [(greedyScan w R C cur moves bv).2.2]))
      else .ok (rs, cs) := rfl

theorem greedyScan_fold_inv (w : Pos → WithTop ℤ) (R C : ℕ) (cur : Pos) :
    ∀ (moves : List Pos) (acc : WithTop ℤ × Pos),
      ((acc.2 = cur ∧ acc.1 = w cur) ∨ (inB R C acc.2 ∧ w acc.2 = acc.1 ∧ acc.1 < w cur)) →
      (((moves.foldl (gstep w R C cur) acc).2 = cur ∧
        (moves.foldl (gstep w R C cur) acc).1 = w cur) ∨
       (inB R C (moves.foldl (gstep w R C cur) acc).2 ∧
        w (moves.foldl (gstep w R C cur) acc).2 = (moves.foldl (gstep w R C cur) acc).1 ∧
        (moves.foldl (gstep w R C cur) acc).1 < w cur)) := by
  intro moves
  induction moves with
  | nil => intro acc hacc; exact hacc
  | cons m rest ih =>
    intro acc hacc
    apply ih
    unfold gstep
    by_cases hb : 0 ≤ (cur + m).1 ∧ (cur + m).1 < (R : ℤ) ∧ 0 ≤ (cur + m).2 ∧ (cur + m).2 < (C : ℤ)
    · rw [if_pos hb]
      by_cases hlt : w (cur + m) < acc.1
      · rw [if_pos hlt]
        right
        refine ⟨hb, rfl, ?_⟩
        rcases hacc with ⟨_, h2⟩ | ⟨_, _, h3⟩
        · rw [h2] at hlt; exact hlt
        · exact lt_trans hlt h3
      · rw [if_neg hlt]
        exact hacc
    · rw [if_neg hb]
      exact hacc

theorem greedyScan_cases (w : Pos → WithTop ℤ) (R C : ℕ) (cur : Pos) (moves : List Pos) :
    (greedyScan w R C cur moves (w cur)).2 = cur ∨
    (inB R C (greedyScan w R C cur moves (w cur)).2 ∧
      w (greedyScan w R C cur moves (w cur)).2 < w cur) := by
  have h := greedyScan_fold_inv w R C cur moves (w cur, cur) (Or.inl ⟨rfl, rfl⟩)
  unfold greedyScan
  rcases h with ⟨h1, _⟩ | ⟨h1, h2, h3⟩
  · exact Or.inl h1
  · exact Or.inr ⟨h1, by rw [h2]; exact h3⟩

theorem greedyAux_ok {w : Pos → WithTop ℤ} {R C : ℕ} {goal : Pos} {moves : List Pos} :
    ∀ (fuel : ℕ) (cur : Pos) (acc : List Pos),
      inB R C cur →
      ((cells R C).filter (fun p => w p < w cur)).card < fuel →
      ∃ ext : List Pos,
        greedyAux w R C goal moves fuel cur (acc.map Prod.fst) (acc.map Prod.snd) =
          .ok ((acc ++ ext).map Prod.fst, (acc ++ ext).map Prod.snd) ∧
        ext.length ≤ ((cells R C).filter (fun p => w p < w cur)).card ∧
        List.Chain' (fun a b => w b < w a) (cur :: ext) ∧
        (∀ x ∈ ext, inB R C x) ∧
        (∃ last, (cur :: ext).getLast? = some last ∧
          ((last.1 = goal.1 ∧ last.2 = goal.2) ∨
           (greedyScan w R C last moves (w last)).2 = last)) := by
  intro fuel
  induction fuel with
  | zero =>
    intro cur acc _ hcard
    exact absurd hcard (Nat.not_lt_zero _)
  | succ k ih =>
    intro cur acc hin hcard
    rw [greedyAux_succ]
    by_cases hgoal : cur.1 ≠ goal.1 ∨ cur.2 ≠ goal.2
    · rw [if_pos hgoal, numpyGetW_inB hin, except_bind_ok]
      rcases greedyScan_cases w R C cur moves with hfix | ⟨hinn, hdec⟩
      · rw [if_pos hfix]
        refine ⟨[], ?_, Nat.zero_le _, List.chain'_singleton _, ?_, cur, rfl, Or.inr hfix⟩
        · rw [List.append_nil]
        · intro x hx
          cases hx
      · have hne : (greedyScan w R C cur moves (w cur)).2 ≠ cur := by
          intro hc
          rw [hc] at hdec
          exact lt_irrefl _ hdec
        rw [if_neg hne]
        have hsub : (cells R C).filter
            (fun p => w p < w (greedyScan w R C cur moves (w cur)).2) ⊆
            (cells R C).filter (fun p => w p < w cur) := by
          intro p hp
          rw [Finset.mem_filter] at hp ⊢
          exact ⟨hp.1, lt_trans hp.2 hdec⟩
        have hmemn : (greedyScan w R C cur moves (w cur)).2 ∈
            (cells R C).filter (fun p => w p < w cur) :=
          Finset.mem_filter.mpr ⟨mem_cells.mpr hinn, hdec⟩
        have hnotn : (greedyScan w R C cur moves (w cur)).2 ∉
            (cells R C).filter (fun p => w p < w (greedyScan w R C cur moves (w cur)).2) := by
          rw [Finset.mem_filter]
          rintro ⟨_, hc⟩
          exact lt_irrefl _ hc
        have hcard' : ((cells R C).filter
            (fun p => w p < w (greedyScan w R C cur moves (w cur)).2)).card <
            ((cells R C).filter (fun p => w p < w cur)).card :=
          Finset.card_lt_card ⟨hsub, fun hss => hnotn (hss hmemn)⟩
        obtain ⟨ext', hok, hlen, hchain, hbnd, last, hlast, hstop⟩ :=
          ih (greedyScan w R C cur moves (w cur)).2
            (acc ++ [(greedyScan w R C cur moves (w cur)).2]) hinn (by omega)
        refine ⟨(greedyScan w R C cur moves (w cur)).2 :: ext', ?_, ?_, ?_, ?_,
          last, ?_, hstop⟩
        · rw [List.map_append, List.map_append, List.map_singleton, List.map_singleton] at hok
          rw [List.append_assoc, List.singleton_append] at hok
          exact hok
        · rw [List.length_cons]
          omega
        · rw [List.chain'_cons]
          exact ⟨hdec, hchain⟩
        · intro x hx
          rcases List.mem_cons.mp hx with hx1 | hx2
          · rw [hx1]; exact hinn
          · exact hbnd x hx2
        · rw [List.getLast?_cons_cons]
          exact hlast
    · rw [if_neg hgoal]
      refine ⟨[], ?_, Nat.zero_le _, List.chain'_singleton _, ?_, cur, rfl, Or.inl ?_⟩
      · rw [List.append_nil]
      · intro x hx
        cases hx
      · push_neg at hgoal
        exact hgoal

theorem greedy_descent_path_eq {w : Pos → WithTop ℤ} {R C : ℕ} {start goal : Pos} {c : ℤ}
    (hc : c = 4 ∨ c = 8) :
    greedy_descent_path w R C start goal c =
      greedyAux w R C goal (hmoves c) (R * C + 1) start [start.1] [start.2] := by
  rcases hc with rfl | rfl <;> rfl

/-- C10 (confirmed): greedy descent terminates on every field for every
in-bounds start and connectivity 4 or 8, each accepted move strictly
decreases the field value, the path stays within `R*C` moves, and it stops
at the goal or at a cell with no strictly smaller in-bounds neighbour. -/
theorem C10_greedy_descent_terminates {w : Pos → WithTop ℤ} {R C : ℕ} {start goal : Pos}
    {c : ℤ} (hc : c = 4 ∨ c = 8) (hs : inB R C start) (hgl : inB R C goal) :
    ∃ path : List Pos,
      greedy_descent_path w R C start goal c = .ok (path.map Prod.fst, path.map Prod.snd) ∧
      path.head? = some start ∧
      path.length ≤ R * C + 1 ∧
      List.Chain' (fun a b => w b < w a) path ∧
      (∃ last, path.getLast? = some last ∧
        ((last.1 = goal.1 ∧ last.2 = goal.2) ∨
         (greedyScan w R C last (hmoves c) (w last)).2 = last)) := by
  have hfle : ((cells R C).filter (fun p => w p < w start)).card ≤ R * C := by
    have := Finset.card_filter_le (cells R C) (fun p => w p < w start)
    rw [card_cells] at this
    exact this
  obtain ⟨ext, hok, hlen, hchain, _, last, hlast, hstop⟩ :=
    @greedyAux_ok w R C goal (hmoves c) (R * C + 1) start [start] hs (by omega)
  refine ⟨start :: ext, ?_, rfl, ?_, hchain, last, hlast, hstop⟩
  · rw [greedy_descent_path_eq hc]
    simp only [List.map_cons, List.map_nil, List.singleton_append] at hok
    exact hok
  · rw [List.length_cons]
    omega

theorem C10_greedy_descent_terminates_witness :
    (((4 : ℤ) = 4 ∨ (4 : ℤ) = 8) ∧ inB 1 2 ((0 : ℤ), (0 : ℤ)) ∧ inB 1 2 ((0 : ℤ), (1 : ℤ))) ∧
    (∃ path : List Pos,
      greedy_descent_path (fun _ => ((0 : ℤ) : WithTop ℤ)) 1 2 (0, 0) (0, 1) 4 =
        .ok (path.map Prod.fst, path.map Prod.snd) ∧
      path.head? = some ((0 : ℤ), (0 : ℤ)) ∧
      path.length ≤ 1 * 2 + 1 ∧
      List.Chain' (fun a b => (fun _ => ((0 : ℤ) : WithTop ℤ)) b <
        (fun _ => ((0 : ℤ) : WithTop ℤ)) a) path ∧
      (∃ last, path.getLast? = some last ∧
        ((last.1 = (0 : ℤ) ∧ last.2 = (1 : ℤ)) ∨
         (greedyScan (fun _ => ((0 : ℤ) : WithTop ℤ)) 1 2 last (hmoves 4)
            ((fun _ => ((0 : ℤ) : WithTop ℤ)) last)).2 = last))) := by
  exact ⟨⟨Or.inl rfl, by decide, by decide⟩,
    C10_greedy_descent_terminates (Or.inl rfl) (by decide) (by decide)⟩

/-- The spec's concrete scenario 4: wavefront on the fully free 1×5 grid
with goal (0,0) and connectivity 4, then greedy descent from (0,4). -/
def scenario4 : Except String (List ℤ × List ℤ) :=
  match compute_wavefront gfree 1 5 (0, 0) 4 with
  | .ok rv => greedy_descent_path rv.1 1 5 (0, 4) (0, 0) 4
  | .error e => .error e

/-- C8 (confirmed): scenario 4 returns exactly the straight path
[(0,4),(0,3),(0,2),(0,1),(0,0)]. -/
theorem C8_scenario4_path : scenario4 = .ok ([0, 0, 0, 0, 0], [4, 3, 2, 1, 0]) := rfl

/-! ## Gradient descent on potential fields (src/gradient_descent.py) -/

/-- `compute_total_potential`: elementwise sum of attractive and repulsive. -/
def compute_total_potential (att rep : Pos → ℚ) : Pos → ℚ := fun p => att p + rep p

/-- Gradient-descent move pattern for 4-connectivity (zero move first). -/
def gmoves4 : List Pos := [(0,0),(0,1),(-1,0),(1,0),(0,-1)]

/-- Gradient-descent move pattern for 8-connectivity (zero move first). -/
def gmoves8 : List Pos := [(0,0),(-1,-1),(-1,0),(0,-1),(1,0),(0,1),(1,-1),(1,1),(-1,1)]

/-- The gradient-descent move pattern selected by a valid connectivity. -/
def gmoves (c : ℤ) : List Pos :=
  if c = 4 then gmoves4 else if c = 8 then gmoves8 else []

/-- numpy read of a rational-valued array: negative indices wrap once,
indices outside [-n, n) raise IndexError. -/
def numpyGetQ (f : Pos → ℚ) (R C : ℕ) (i j : ℤ) : Except String ℚ :=
  if -(R : ℤ) ≤ i ∧ i < (R : ℤ) ∧ -(C : ℤ) ≤ j ∧ j < (C : ℤ) then
    .ok (f (if i < 0 then i + R else i, if j < 0 then j + C else j))
  else .error "IndexError"

/-- The candidate list built by the potential-difference loop: one
`(difference, move)` pair per move vector, with unguarded numpy reads. -/
def gdCandidates (f : Pos → ℚ) (R C : ℕ) (cur : Pos) (moves : List Pos) :
    Except String (List (ℚ × Pos)) :=
  moves.mapM (fun m => do
    let a ← numpyGetQ f R C (cur + m).1 (cur + m).2
    let b ← numpyGetQ f R C cur.1 cur.2
    pure (a - b, m))

/-- Python's ordering on a `(float, [dr, dc])` pair: lexicographic on the
difference, then on the move-vector list. -/
def pairLt (x y : ℚ × Pos) : Prop :=
  x.1 < y.1 ∨ (x.1 = y.1 ∧ (x.2.1 < y.2.1 ∨ (x.2.1 = y.2.1 ∧ x.2.2 < y.2.2)))

instance (x y : ℚ × Pos) : Decidable (pairLt x y) := by
  unfold pairLt; infer_instance

/-- Python's `min` over a nonempty list: keep the current value unless the
next element compares strictly smaller. -/
def pyMin (h : ℚ × Pos) (t : List (ℚ × Pos)) : ℚ × Pos :=
  t.foldl (fun acc x => if pairLt x acc then x else acc) h

/-- `gradient_descent_step`: unguarded neighbour reads, then
`min(zip(potential_diffs, move_type))`. -/
def gradient_descent_step (f : Pos → ℚ) (R C : ℕ) (cur : Pos) (c : ℤ) :
    Except String Pos :=
  if c = 4 then
    (gdCandidates f R C cur gmoves4).bind (fun ps =>
      match ps with
      | [] => .error "min of empty sequence"
      | h :: t => .ok (cur + (pyMin h t).2))
  else if c = 8 then
    (gdCandidates f R C cur gmoves8).bind (fun ps =>
      match ps with
      | [] => .error "min of empty sequence"
      | h :: t => .ok (cur + (pyMin h t).2))
  else
    .error ("Unsupported connectivity: " ++ toString c ++ ". Use 4 or 8.")

/-- The gradient-descent iteration loop (`for _ in range(max_iters)`). -/
def gdPathAux (f : Pos → ℚ) (R C : ℕ) (c : ℤ) (goal : Pos) :
    ℕ → Pos → List ℤ → List ℤ → Except String (List ℤ × List ℤ)
  | 0, _, rs, cs => .ok (rs, cs)
  | n + 1, cur, rs, cs =>
    if cur.1 = goal.1 ∧ cur.2 = goal.2 then .ok (rs, cs)
    else
      (gradient_descent_step f R C cur c).bind (fun nxt =>
        gdPathAux f R C c goal n nxt (rs ++ [nxt.1]) (cs ++ [nxt.2]))

/-- `gradient_descent_path` from src/gradient_descent.py. -/
def gradient_descent_path (f : Pos → ℚ) (R C : ℕ) (start goal : Pos) (c : ℤ)
    (max_iters : ℕ) : Except String (List ℤ × List ℤ) :=
  gdPathAux f R C c goal max_iters start [start.1] [start.2]

theorem pairLt_irrefl (x : ℚ × Pos) : ¬ pairLt x x := by
  unfold pairLt
  rintro (h | ⟨_, h | ⟨_, h⟩⟩) <;> exact lt_irrefl _ h

theorem pairLt_trans {x y z : ℚ × Pos} (h1 : pairLt x y) (h2 : pairLt y z) : pairLt x z := by
  unfold pairLt at h1 h2 ⊢
  rcases h1 with h1 | ⟨e1, h1⟩
  · rcases h2 with h2 | ⟨e2, _⟩
    · exact Or.inl (lt_trans h1 h2)
    · exact Or.inl (lt_of_lt_of_eq h1 e2)
  · rcases h2 with h2 | ⟨e2, h2⟩
    · exact Or.inl (lt_of_eq_of_lt e1 h2)
    · refine Or.inr ⟨e1.trans e2, ?_⟩
      omega

theorem pairLt_asymm {x y : ℚ × Pos} (h1 : pairLt x y) : ¬ pairLt y x :=
  fun h2 => pairLt_irrefl x (pairLt_trans h1 h2)

theorem pairLt_total (x y : ℚ × Pos) : pairLt x y ∨ x = y ∨ pairLt y x := by
  obtain ⟨x1, x2, x3⟩ := x
  obtain ⟨y1, y2, y3⟩ := y
  unfold pairLt
  dsimp only
  rcases lt_trichotomy x1 y1 with h | h | h
  · exact Or.inl (Or.inl h)
  · subst h
    rcases lt_trichotomy x2 y2 with h2 | h2 | h2
    · exact Or.inl (Or.inr ⟨rfl, Or.inl h2⟩)
    · subst h2
      rcases lt_trichotomy x3 y3 with h3 | h3 | h3
      · exact Or.inl (Or.inr ⟨rfl, Or.inr ⟨rfl, h3⟩⟩)
      · subst h3
        exact Or.inr (Or.inl rfl)
      · exact Or.inr (Or.inr (Or.inr ⟨rfl, Or.inr ⟨rfl, h3⟩⟩))
    · exact Or.inr (Or.inr (Or.inr ⟨rfl, Or.inl h2⟩))
  · exact Or.inr (Or.inr (Or.inl h))

theorem pyMin_mem : ∀ (t : List (ℚ × Pos)) (h : ℚ × Pos), pyMin h t ∈ h :: t := by
  intro t
  induction t with
  | nil =>
    intro h
    exact List.mem_singleton_self h
  | cons x t' ih =>
    intro h
    show List.foldl (fun acc z => if pairLt z acc then z else acc)
      (if pairLt x h then x else h) t' ∈ h :: x :: t'
    by_cases hc : pairLt x h
    · rw [if_pos hc]
      rcases List.mem_cons.mp (ih x) with h1 | h1
      · rw [show pyMin x t' = List.foldl (fun acc z => if pairLt z acc then z else acc) x t'
          from rfl] at h1
        rw [h1]
        exact List.mem_cons_of_mem _ (List.mem_cons_self x t')
      · exact List.mem_cons_of_mem _ (List.mem_cons_of_mem _ h1)
    · rw [if_neg hc]
      rcases List.mem_cons.mp (ih h) with h1 | h1
      · rw [show pyMin h t' = List.foldl (fun acc z => if pairLt z acc then z else acc) h t'
          from rfl] at h1
        rw [h1]
        exact List.mem_cons_self h (x :: t')
      · exact List.mem_cons_of_mem _ (List.mem_cons_of_mem _ h1)

theorem pyMin_min : ∀ (t : List (ℚ × Pos)) (h : ℚ × Pos),
    ∀ y ∈ h :: t, ¬ pairLt y (pyMin h t) := by
  intro t
  induction t with
  | nil =>
    intro h y hy
    rw [List.mem_singleton] at hy
    rw [hy]
    exact pairLt_irrefl _
  | cons x t' ih =>
    intro h y hy
    show ¬ pairLt y (List.foldl (fun acc z => if pairLt z acc then z else acc)
      (if pairLt x h then x else h) t')
    by_cases hc : pairLt x h
    · rw [if_pos hc]
      have hmin := ih x
      rcases List.mem_cons.mp hy with hy1 | hy2
      · -- y = h; the fold result is ≤ x < h
        subst hy1
        intro hlt
        rcases List.mem_cons.mp (pyMin_mem t' x) with hm | hm
        · rw [show pyMin x t' = List.foldl (fun acc z => if pairLt z acc then z else acc) x t'
            from rfl] at hm
          rw [hm] at hlt
          exact pairLt_asymm hc hlt
        · have := hmin x (List.mem_cons_self x t')
          rcases pairLt_total (pyMin x t') x with ho | ho | ho
          · exact pairLt_irrefl (pyMin x t') (pairLt_trans ho (pairLt_trans hc hlt))
          · rw [show pyMin x t' = List.foldl (fun acc z => if pairLt z acc then z else acc) x t'
              from rfl] at ho
            rw [ho] at hlt
            exact pairLt_asymm hc hlt
          · exact this ho
      · exact hmin y (by
          rcases List.mem_cons.mp hy2 with h1 | h1
          · rw [h1]; exact List.mem_cons_self x t'
          · exact List.mem_cons_of_mem _ h1)
    · rw [if_neg hc]
      have hmin := ih h
      rcases List.mem_cons.mp hy with hy1 | hy2
      · subst hy1
        exact hmin y (List.mem_cons_self y t')
      · rcases List.mem_cons.mp hy2 with h1 | h1
        · -- y = x, with ¬ x < h
          subst h1
          intro hlt
          have hh := hmin h (List.mem_cons_self h t')
          rcases pairLt_total y h with ho | ho | ho
          · exact hc ho
          · rw [ho] at hlt
            exact hh hlt
          · exact hh (pairLt_trans ho hlt)
        · exact hmin y (List.mem_cons_of_mem _ h1)

/-- A 3×3 test potential with a tie between two descent moves at (1,1). -/
def f33 : Pos → ℚ := fun p =>
  if p = ((1:ℤ),(1:ℤ)) then 5
  else if p = ((1:ℤ),(2:ℤ)) then 4
  else if p = ((0:ℤ),(1:ℤ)) then 4
  else if p = ((2:ℤ),(1:ℤ)) then 7
  else if p = ((1:ℤ),(0:ℤ)) then 9
  else 0

/-- Modelled from the spec: "ties are broken by the enumeration order in which
candidate moves are generated — the first move vector achieving the minimum
wins".  Over the candidate `(difference, move)` pairs in enumeration order,
compute the minimum difference and select the first pair achieving it. -/
def specFirstMinMove (h : ℚ × Pos) (t : List (ℚ × Pos)) : ℚ × Pos :=
  let m := t.foldl (fun acc x => min acc x.1) h.1
  (((h :: t).find? (fun x => x.1 = m)).getD h)

/-- C2 counterexample: on `f33` at cell (1,1) with connectivity 4, moves (0,1)
and (-1,0) both achieve the minimal difference -1.  The spec's
first-in-enumeration-order rule selects move (0,1), landing at (1,2); the
code's Python `min(zip(potential_diffs, move_type))` compares tied entries by
the move vector `[dr, dc]` lexicographically and selects (-1,0), landing at
(0,1) instead. -/
theorem C2_gradient_step_counterexample :
    gdCandidates f33 3 3 (1, 1) (gmoves 4) =
      .ok [(0, (0, 0)), (-1, (0, 1)), (-1, (-1, 0)), (2, (1, 0)), (4, (0, -1))] ∧
    specFirstMinMove (0, (0, 0)) [(-1, (0, 1)), (-1, (-1, 0)), (2, (1, 0)), (4, (0, -1))] =
      (-1, (0, 1)) ∧
    ((1:ℤ), (1:ℤ)) + ((0:ℤ), (1:ℤ)) = ((1:ℤ), (2:ℤ)) ∧
    gradient_descent_step f33 3 3 (1, 1) 4 = .ok (0, 1) ∧
    ((0:ℤ), (1:ℤ)) ≠ ((1:ℤ), (2:ℤ)) :=
  ⟨by with_unfolding_all rfl, by with_unfolding_all rfl, rfl,
   by with_unfolding_all rfl, by decide⟩

/-- C2 (amended): for connectivity 4 or 8, whenever the candidate
`(difference, move)` list is nonempty (no read raised), the step returns the
current cell translated by the move of the lexicographically least pair —
minimum potential difference first, ties broken by comparing the move vectors
`[dr, dc]` lexicographically (Python tuple/list comparison), not by enumeration
order. -/
theorem C2_gradient_step_lex_min {f : Pos → ℚ} {R C : ℕ} {cur : Pos} {c : ℤ}
    (hc : c = 4 ∨ c = 8) {h0 : ℚ × Pos} {t : List (ℚ × Pos)}
    (hps : gdCandidates f R C cur (gmoves c) = .ok (h0 :: t)) :
    gradient_descent_step f R C cur c = .ok (cur + (pyMin h0 t).2) ∧
    pyMin h0 t ∈ h0 :: t ∧
    ∀ y ∈ h0 :: t, ¬ pairLt y (pyMin h0 t) := by
  refine ⟨?_, pyMin_mem t h0, pyMin_min t h0⟩
  rcases hc with rfl | rfl
  · have hps' : gdCandidates f R C cur gmoves4 = .ok (h0 :: t) := hps
    unfold gradient_descent_step
    rw [if_pos rfl, hps']
    rfl
  · have hps' : gdCandidates f R C cur gmoves8 = .ok (h0 :: t) := hps
    unfold gradient_descent_step
    rw [if_neg (by decide), if_pos rfl, hps']
    rfl

/-- C2 witness: the amended tie-break rule at the concrete tied instance. -/
theorem C2_gradient_step_lex_min_witness :
    ((4:ℤ) = 4 ∨ (4:ℤ) = 8) ∧
    gdCandidates f33 3 3 (1, 1) (gmoves 4) =
      .ok ((0, (0, 0)) ::
        [(-1, (0, 1)), (-1, (-1, 0)), (2, (1, 0)), (4, (0, -1))]) ∧
    (gradient_descent_step f33 3 3 (1, 1) 4 =
      .ok ((1, 1) +
        (pyMin (0, (0, 0))
          [(-1, (0, 1)), (-1, (-1, 0)), (2, (1, 0)), (4, (0, -1))]).2) ∧
    pyMin (0, (0, 0)) [(-1, (0, 1)), (-1, (-1, 0)), (2, (1, 0)), (4, (0, -1))] ∈
      (0, (0, 0)) :: [(-1, (0, 1)), (-1, (-1, 0)), (2, (1, 0)), (4, (0, -1))] ∧
    ∀ y ∈ (0, (0, 0)) :: [(-1, (0, 1)), (-1, (-1, 0)), (2, (1, 0)), (4, (0, -1))],
      ¬ pairLt y (pyMin (0, (0, 0))
        [(-1, (0, 1)), (-1, (-1, 0)), (2, (1, 0)), (4, (0, -1))])) :=
  ⟨Or.inl rfl, by with_unfolding_all rfl,
   C2_gradient_step_lex_min (Or.inl rfl) (by with_unfolding_all rfl)⟩

/-- C3: `gradient_descent_path` CAN raise on in-bounds inputs.  On a 2×2
all-zero potential with in-bounds start (1,0), in-bounds goal (0,0),
connectivity 4 and a positive iteration cap, the first step's unguarded
neighbour read `potential[cur+ (1,0)] = potential[2][0]` is out of range and
raises IndexError instead of being skipped. -/
theorem C3_gradient_path_raises :
    inB 2 2 ((1:ℤ), (0:ℤ)) ∧ inB 2 2 ((0:ℤ), (0:ℤ)) ∧
    gradient_descent_path (fun _ => (0 : ℚ)) 2 2 (1, 0) (0, 0) 4 1000 =
      .error "IndexError" :=
  ⟨by decide, by decide, rfl⟩

/-- Unfolding equation for one iteration of the gradient-descent loop. -/
theorem gdPathAux_succ (f : Pos → ℚ) (R C : ℕ) (c : ℤ) (goal : Pos) (n : ℕ)
    (cur : Pos) (rs cs : List ℤ) :
    gdPathAux f R C c goal (n + 1) cur rs cs =
      if cur.1 = goal.1 ∧ cur.2 = goal.2 then .ok (rs, cs)
      else (gradient_descent_step f R C cur c).bind (fun nxt =>
        gdPathAux f R C c goal n nxt (rs ++ [nxt.1]) (cs ++ [nxt.2])) := rfl

theorem except_bind_error {α β : Type} (e : String) (k : α → Except String β) :
    (Except.error e : Except String α).bind k = .error e := rfl

/-- C6 (amended): for a connectivity value that is neither 4 nor 8,
`compute_obstacle_distance`, `compute_wavefront` (once its goal passes the
numpy bounds check that runs first) and `greedy_descent_path` all return the
connectivity error naming the offending value — but `gradient_descent_path`
does so only when it actually takes a step: with `max_iters = 0` or
`start = goal` it returns the singleton start path without raising. -/
theorem C6_invalid_connectivity {g : Pos → ℤ} {w : Pos → WithTop ℤ} {f : Pos → ℚ}
    {R C : ℕ} {goal start : Pos} {c : ℤ} {N : ℕ}
    (hc4 : c ≠ 4) (hc8 : c ≠ 8) (hgB : inB R C goal) :
    compute_obstacle_distance g R C c =
      .error ("Unsupported connectivity: " ++ toString c ++ ". Use 4 or 8.") ∧
    compute_wavefront g R C goal c =
      .error ("Unsupported connectivity: " ++ toString c ++ ". Use 4 or 8.") ∧
    greedy_descent_path w R C start goal c =
      .error ("Unsupported connectivity: " ++ toString c ++ ". Use 4 or 8.") ∧
    (N = 0 ∨ start.1 = goal.1 ∧ start.2 = goal.2 →
      gradient_descent_path f R C start goal c N = .ok ([start.1], [start.2])) ∧
    (0 < N → ¬(start.1 = goal.1 ∧ start.2 = goal.2) →
      gradient_descent_path f R C start goal c N =
        .error ("Unsupported connectivity: " ++ toString c ++ ". Use 4 or 8.")) := by
  have hgB' : 0 ≤ goal.1 ∧ goal.1 < (R : ℤ) ∧ 0 ≤ goal.2 ∧ goal.2 < (C : ℤ) := hgB
  refine ⟨?_, ?_, ?_, ?_, ?_⟩
  · unfold compute_obstacle_distance
    rw [if_neg hc4, if_neg hc8]
  · unfold compute_wavefront
    rw [if_neg (by omega), if_neg hc4, if_neg hc8]
  · unfold greedy_descent_path
    rw [if_neg hc4, if_neg hc8]
  · intro h
    rcases h with rfl | hsg
    · rfl
    · cases N with
      | zero => rfl
      | succ n =>
        show gdPathAux f R C c goal (n + 1) start [start.1] [start.2] = _
        rw [gdPathAux_succ, if_pos hsg]
  · intro hN hne
    obtain ⟨n, rfl⟩ : ∃ n, N = n + 1 := ⟨N - 1, by omega⟩
    show gdPathAux f R C c goal (n + 1) start [start.1] [start.2] = _
    rw [gdPathAux_succ, if_neg hne]
    unfold gradient_descent_step
    rw [if_neg hc4, if_neg hc8]
    rfl

/-- C6 counterexample: with connectivity 7 (invalid), in-bounds start equal to
the goal, and a positive iteration cap, `gradient_descent_path` returns the
singleton start path successfully instead of raising the connectivity error. -/
theorem C6_counterexample :
    (7:ℤ) ≠ 4 ∧ (7:ℤ) ≠ 8 ∧ inB 1 1 ((0:ℤ), (0:ℤ)) ∧
    gradient_descent_path (fun _ => (0 : ℚ)) 1 1 (0, 0) (0, 0) 7 1000 =
      .ok ([0], [0]) :=
  ⟨by decide, by decide, by decide, rfl⟩

/-- C6 witness: the amended error behaviour at connectivity 5 on a 1×1 grid. -/
theorem C6_invalid_connectivity_witness :
    ((5:ℤ) ≠ 4 ∧ (5:ℤ) ≠ 8 ∧ inB 1 1 ((0:ℤ), (0:ℤ))) ∧
    (compute_obstacle_distance gfree 1 1 5 =
      .error ("Unsupported connectivity: " ++ toString (5:ℤ) ++ ". Use 4 or 8.") ∧
    compute_wavefront gfree 1 1 (0, 0) 5 =
      .error ("Unsupported connectivity: " ++ toString (5:ℤ) ++ ". Use 4 or 8.") ∧
    greedy_descent_path (fun _ => (0 : WithTop ℤ)) 1 1 (0, 0) (0, 0) 5 =
      .error ("Unsupported connectivity: " ++ toString (5:ℤ) ++ ". Use 4 or 8.") ∧
    ((0:ℕ) = 0 ∨ ((0:ℤ), (0:ℤ)).1 = ((0:ℤ), (0:ℤ)).1 ∧ ((0:ℤ), (0:ℤ)).2 = ((0:ℤ), (0:ℤ)).2 →
      gradient_descent_path (fun _ => (0 : ℚ)) 1 1 (0, 0) (0, 0) 5 0 =
        .ok ([((0:ℤ), (0:ℤ)).1], [((0:ℤ), (0:ℤ)).2])) ∧
    (0 < (0:ℕ) → ¬(((0:ℤ), (0:ℤ)).1 = ((0:ℤ), (0:ℤ)).1 ∧ ((0:ℤ), (0:ℤ)).2 = ((0:ℤ), (0:ℤ)).2) →
      gradient_descent_path (fun _ => (0 : ℚ)) 1 1 (0, 0) (0, 0) 5 0 =
        .error ("Unsupported connectivity: " ++ toString (5:ℤ) ++ ". Use 4 or 8."))) :=
  ⟨⟨by decide, by decide, by decide⟩,
   C6_invalid_connectivity (by decide) (by decide) (by decide)⟩

/-! ## Attractive and repulsive potential fields
(src/attractive_field.py, src/repulsive_field.py) -/

/-- `compute_attractive_field` from src/attractive_field.py.  For the
euclidean metric the value written is `0.5*xi*(sqrt(dr^2+dc^2))^2`, i.e.
exactly `0.5*xi*(dr^2+dc^2)`; manhattan squares the absolute-difference sum.
For the BFS modes the grid contents are first zeroed (`result[:] = 0`), the
goal is written with numpy indexing (negative wrap, IndexError out of range),
the BFS spreads over still-zero cells exactly as in brushfire (same move
lists), 1 is subtracted everywhere, and the result is squared and scaled.
An unrecognized mode leaves `move_type` empty and returns without raising. -/
def compute_attractive_field (R C : ℕ) (goal : Pos) (ξ : ℚ) (mode : String) :
    Except String (Pos → ℚ) :=
  if mode = "euclidean" then
    .ok (fun p => (1/2) * ξ *
      ((((p.1 - goal.1)^2 + (p.2 - goal.2)^2 : ℤ)) : ℚ))
  else if mode = "manhattan" then
    .ok (fun p => (1/2) * ξ *
      ((((p.1 - goal.1).natAbs + (p.2 - goal.2).natAbs : ℤ)^2 : ℤ) : ℚ))
  else if goal.1 < -(R : ℤ) ∨ goal.1 ≥ (R : ℤ) ∨ goal.2 < -(C : ℤ) ∨ goal.2 ≥ (C : ℤ) then
    .error "IndexError"
  else
    let gw : Pos := (npWrap R goal.1, npWrap C goal.2)
    let moves := if mode = "4_point" then bmoves4
                 else if mode = "8_point" then bmoves8 else []
    let fin := (runN (bstep R C moves) (bfuel R C)
      { f := upd (fun _ => (0 : ℤ)) gw 1, q := [gw] }).f
    .ok (fun p => (1/2) * ξ * (((fin p - 1 : ℤ)) : ℚ)^2)

/-- `compute_repulsive_field` from src/repulsive_field.py, elementwise on the
obstacle-distance map: `0.5*eta*(1/d - 1/Q)^2` within the influence distance,
0 outside.  (At `d = 0` numpy produces a non-raising inf; over ℚ the
convention `1/0 = 0` likewise yields a value without raising.) -/
def compute_repulsive_field (d : Pos → ℚ) (Q η : ℚ) : Pos → ℚ :=
  fun p => if d p ≤ Q then (1/2) * η * (1 / d p - 1 / Q)^2 else 0

/-! ## Heap model of array allocation and in-place mutation (claim C9) -/

/-- A runtime array value: integer grids, wavefront values with infinity,
or float potentials. -/
inductive Val : Type
  | iv (z : ℤ)
  | wv (x : WithTop ℤ)
  | qv (x : ℚ)

/-- Projections used when an operation reads an input array of the
corresponding kind. -/
def Val.toI : Val → ℤ
  | .iv z => z
  | _ => 0

def Val.toW : Val → WithTop ℤ
  | .wv x => x
  | _ => 0

def Val.toQ : Val → ℚ
  | .qv x => x
  | _ => 0

/-- The heap of allocated arrays; a reference is an index into it. -/
abbrev Heap : Type := List (Pos → Val)

/-- Allocate a fresh array (`.copy()`, `astype`, or a numpy arithmetic
result): append it and return its reference. -/
def halloc (h : Heap) (f : Pos → Val) : Heap × ℕ := (h ++ [f], h.length)

/-- Read an array out of the heap. -/
def hget (h : Heap) (r : ℕ) : Pos → Val := h.getD r (fun _ => .iv 0)

/-- In-place element writes to the array at `r`, summarized by the array's
final contents. -/
def hset (h : Heap) (r : ℕ) (f : Pos → Val) : Heap := h.set r f

/-- Heap-level `compute_obstacle_distance`: the input grid is read, a fresh
copy is allocated (`result = grid_map.copy().astype(float)`), all BFS writes
and the final `result[:] - 1` target that copy, and its reference is
returned. -/
def distance_transform_op (h : Heap) (rg : ℕ) (R C : ℕ) (c : ℤ) :
    Except String (Heap × ℕ) :=
  let g := fun p => (hget h rg p).toI
  (compute_obstacle_distance g R C c).map (fun res =>
    let a := halloc h (fun p => .iv (g p))
    (hset a.1 a.2 (fun p => .iv (res p)), a.2))

/-- Heap-level `compute_attractive_field`: fresh copy of the input grid,
then `result[:] = 0` and all later writes target the copy. -/
def attractive_field_op (h : Heap) (rg : ℕ) (R C : ℕ) (goal : Pos) (ξ : ℚ)
    (mode : String) : Except String (Heap × ℕ) :=
  let g := fun p => (hget h rg p).toI
  (compute_attractive_field R C goal ξ mode).map (fun res =>
    let a := halloc h (fun p => .qv ((g p : ℤ) : ℚ))
    (hset a.1 a.2 (fun p => .qv (res p)), a.2))

/-- Heap-level `compute_repulsive_field`: fresh copy of the distance map,
elementwise writes target the copy. -/
def repulsive_field_op (h : Heap) (rd : ℕ) (Q η : ℚ) : Heap × ℕ :=
  let d := fun p => (hget h rd p).toQ
  let a := halloc h (fun p => .qv (d p))
  (hset a.1 a.2 (fun p => .qv (compute_repulsive_field d Q η p)), a.2)

/-- Heap-level `compute_total_potential`: numpy `attractive_map +
repulsive_map` allocates a fresh result array; the inputs are only read. -/
def total_potential_op (h : Heap) (ra rr : ℕ) : Heap × ℕ :=
  halloc h (fun p => .qv (compute_total_potential
    (fun q => (hget h ra q).toQ) (fun q => (hget h rr q).toQ) p))

/-- Heap-level `compute_wavefront`: fresh copy of the grid for `result`
(all goal/relaxation writes target it), then a fresh copy of `result` for
`vis_map` (the display rewrites target it); both references are returned. -/
def wavefront_op (h : Heap) (rg : ℕ) (R C : ℕ) (goal : Pos) (c : ℤ) :
    Except String (Heap × ℕ × ℕ) :=
  let g := fun p => (hget h rg p).toI
  (compute_wavefront g R C goal c).map (fun rv =>
    let a := halloc h (fun p => .iv (g p))
    let h1 := hset a.1 a.2 (fun p => .wv (rv.1 p))
    let b := halloc h1 (fun p => .wv (rv.1 p))
    (hset b.1 b.2 (fun p => .wv (rv.2 p)), a.2, b.2))

/-- Heap-level `gradient_descent_path`: the potential array is only read;
the returned trajectory is a pair of plain lists, not an array. -/
def gradient_descent_path_op (h : Heap) (rf : ℕ) (R C : ℕ) (start goal : Pos)
    (c : ℤ) (N : ℕ) : Except String (Heap × List ℤ × List ℤ) :=
  (gradient_descent_path (fun p => (hget h rf p).toQ) R C start goal c N).map
    (fun pr => (h, pr))

/-- Heap-level `greedy_descent_path`: the wavefront array is only read. -/
def greedy_descent_path_op (h : Heap) (rw : ℕ) (R C : ℕ) (start goal : Pos)
    (c : ℤ) : Except String (Heap × List ℤ × List ℤ) :=
  (greedy_descent_path (fun p => (hget h rw p).toW) R C start goal c).map
    (fun pr => (h, pr))

/-- Reading below the allocation frontier ignores a fresh allocation. -/
theorem hget_append_lt (h : Heap) (f : Pos → Val) (s : ℕ) (hs : s < h.length) :
    hget (h ++ [f]) s = hget h s := by
  unfold hget
  rw [List.getD_eq_getElem?_getD, List.getD_eq_getElem?_getD,
    List.getElem?_append, if_pos hs]

/-- Reading a reference other than the written one ignores the write. -/
theorem hget_set_of_ne (h : Heap) (r s : ℕ) (f : Pos → Val) (hne : s ≠ r) :
    hget (hset h r f) s = hget h s := by
  unfold hget hset
  rw [List.getD_eq_getElem?_getD, List.getD_eq_getElem?_getD,
    List.getElem?_set_ne (fun he => hne he.symm)]

/-- Allocating a fresh array and then writing only to it leaves every
previously allocated array unchanged. -/
theorem hget_alloc_set_frame (h : Heap) (f g : Pos → Val) (s : ℕ)
    (hs : s < h.length) :
    hget (hset (h ++ [f]) h.length g) s = hget h s :=
  (hget_set_of_ne (h ++ [f]) h.length s g (by omega)).trans
    (hget_append_lt h f s hs)

/-- Destructor for a successful `Except.map`. -/
theorem except_map_ok {α β : Type} {F : α → β} {x : Except String α} {b : β}
    (h : x.map F = .ok b) : ∃ a, x = .ok a ∧ F a = b := by
  cases x with
  | error e => exact Except.noConfusion h
  | ok a => exact ⟨a, rfl, by injection h⟩

/-- C9: no core operation mutates any of its input arrays — every array
allocated before the call reads back unchanged afterwards — and every
returned field is a fresh allocation (its reference equals the pre-call heap
size, so it differs from every existing reference; the wavefront's two
returned fields are moreover distinct from each other).  The two path
extractors return plain coordinate lists and leave the heap untouched. -/
theorem C9_no_input_mutation :
    (∀ (h : Heap) (rg R C : ℕ) (c : ℤ) (h' : Heap) (r' : ℕ),
      distance_transform_op h rg R C c = .ok (h', r') →
      (∀ s, s < h.length → hget h' s = hget h s) ∧ r' = h.length) ∧
    (∀ (h : Heap) (rg R C : ℕ) (goal : Pos) (ξ : ℚ) (mode : String)
        (h' : Heap) (r' : ℕ),
      attractive_field_op h rg R C goal ξ mode = .ok (h', r') →
      (∀ s, s < h.length → hget h' s = hget h s) ∧ r' = h.length) ∧
    (∀ (h : Heap) (rd : ℕ) (Q η : ℚ),
      (∀ s, s < h.length → hget (repulsive_field_op h rd Q η).1 s = hget h s) ∧
      (repulsive_field_op h rd Q η).2 = h.length) ∧
    (∀ (h : Heap) (ra rr : ℕ),
      (∀ s, s < h.length → hget (total_potential_op h ra rr).1 s = hget h s) ∧
      (total_potential_op h ra rr).2 = h.length) ∧
    (∀ (h : Heap) (rg R C : ℕ) (goal : Pos) (c : ℤ) (h' : Heap) (r1 r2 : ℕ),
      wavefront_op h rg R C goal c = .ok (h', r1, r2) →
      (∀ s, s < h.length → hget h' s = hget h s) ∧
      r1 = h.length ∧ r2 = h.length + 1) ∧
    (∀ (h : Heap) (rf R C : ℕ) (start goal : Pos) (c : ℤ) (N : ℕ)
        (h' : Heap) (rows cols : List ℤ),
      gradient_descent_path_op h rf R C start goal c N = .ok (h', rows, cols) →
      h' = h) ∧
    (∀ (h : Heap) (rwf R C : ℕ) (start goal : Pos) (c : ℤ)
        (h' : Heap) (rows cols : List ℤ),
      greedy_descent_path_op h rwf R C start goal c = .ok (h', rows, cols) →
      h' = h) := by
  refine ⟨?_, ?_, ?_, ?_, ?_, ?_, ?_⟩
  · intro h rg R C c h' r' heq
    dsimp only [distance_transform_op, halloc] at heq
    obtain ⟨res, _, hF⟩ := except_map_ok heq
    rw [Prod.mk.injEq] at hF
    obtain ⟨hh, hr⟩ := hF
    subst hh hr
    exact ⟨fun s hs => hget_alloc_set_frame h _ _ s hs, rfl⟩
  · intro h rg R C goal ξ mode h' r' heq
    dsimp only [attractive_field_op, halloc] at heq
    obtain ⟨res, _, hF⟩ := except_map_ok heq
    rw [Prod.mk.injEq] at hF
    obtain ⟨hh, hr⟩ := hF
    subst hh hr
    exact ⟨fun s hs => hget_alloc_set_frame h _ _ s hs, rfl⟩
  · intro h rd Q η
    exact ⟨fun s hs => hget_alloc_set_frame h _ _ s hs, rfl⟩
  · intro h ra rr
    exact ⟨fun s hs => hget_append_lt h _ s hs, rfl⟩
  · intro h rg R C goal c h' r1 r2 heq
    dsimp only [wavefront_op, halloc] at heq
    obtain ⟨rv, _, hF⟩ := except_map_ok heq
    rw [Prod.mk.injEq] at hF
    obtain ⟨hh, hr⟩ := hF
    rw [Prod.mk.injEq] at hr
    obtain ⟨hr1, hr2⟩ := hr
    subst hh hr1 hr2
    have hl1 : (hset (h ++ [fun p => Val.iv ((hget h rg p).toI)]) h.length
        (fun p => Val.wv (rv.1 p))).length = h.length + 1 := by
      unfold hset
      rw [List.length_set, List.length_append, List.length_singleton]
    refine ⟨?_, rfl, hl1⟩
    intro s hs
    rw [hget_alloc_set_frame _ _ _ s (by omega)]
    exact hget_alloc_set_frame h _ _ s hs
  · intro h rf R C start goal c N h' rows cols heq
    dsimp only [gradient_descent_path_op] at heq
    obtain ⟨pr, _, hF⟩ := except_map_ok heq
    rw [Prod.mk.injEq] at hF
    exact hF.1.symm
  · intro h rwf R C start goal c h' rows cols heq
    dsimp only [greedy_descent_path_op] at heq
    obtain ⟨pr, _, hF⟩ := except_map_ok heq
    rw [Prod.mk.injEq] at hF
    exact hF.1.symm

/-- A one-array heap used to witness the frame theorem. -/
def c9heap : Heap := [fun _ => Val.iv 0]

/-- C9 witness: the frame property instantiated on a concrete call. -/
theorem C9_no_input_mutation_witness :
    ∃ h' r', distance_transform_op c9heap 0 1 1 4 = .ok (h', r') ∧
      (∀ s, s < c9heap.length → hget h' s = hget c9heap s) ∧
      r' = c9heap.length := by
  obtain ⟨h', r', heq⟩ : ∃ h' r',
      distance_transform_op c9heap 0 1 1 4 = .ok (h', r') := ⟨_, _, rfl⟩
  obtain ⟨hf, hr⟩ := C9_no_input_mutation.1 c9heap 0 1 1 4 h' r' heq
  exact ⟨h', r', heq, hf, hr⟩
